import Mathlib

/-!
# One-time initialisation (`once.h`) over the system mutex (`system_mutex.h`)

A shallow embedding of `google::protobuf::internal::call_once`, the callable
dispatch `call` / `call_member`, the wrappers `GoogleOnceInit`,
`GoogleOnceInitArg`, `GoogleOnceDynamic::Init`, the scoped
`simply_lock_guard` and the kernel-backed `SystemMutex`.

Two semantics are given for `call_once`:

* a big-step one (`call_once`), one whole invocation by one thread with no
  other thread running meanwhile;
* a small-step one (`step`), where every thread has a program counter over
  the statements of `call_once` and a schedule interleaves the threads.
  Reads and writes of `done_` are atomic steps in schedule order.

Both record the operations they perform in a trace of `Event`s, and
`solo_run` shows that a thread left alone for seven turns of the small-step
semantics does what the big-step one does.

The guarded actions act on a user state `U`; they do not touch the flag. The
kernel calls behind `SystemMutex` are not part of the sources and are
modelled (`k_mutex_lock`, `k_mutex_unlock`, `k_mutex_init`).
-/

namespace Once

/-! ## The kernel mutex -/

/-- Identifier of a thread. -/
abbrev Tid := Nat

/-- The two waiting periods the sources pass to the kernel. -/
inductive k_timeout_t
  | K_NO_WAIT
  | K_FOREVER
deriving DecidableEq

/-- Modelled from the spec: the native mutex of the kernel (`struct k_mutex`
of `kernel.h`, which the sources include but do not contain). It has at most
one holder; `lock_count` counts the nested acquisitions of that holder. -/
structure k_mutex where
  owner : Option Tid
  lock_count : Nat
deriving DecidableEq

/-- Error number reported when a zero-wait acquisition finds the mutex held. -/
def EBUSY : Int := 16

/-- Error number reported when a thread releases a mutex held by another. -/
def EPERM : Int := 1

/-- Error number reported when a free mutex is released. -/
def EINVAL : Int := 22

/-- Modelled from the spec: `k_mutex_init` (of `kernel.h`, absent from the
sources) leaves the mutex free. -/
def k_mutex_init : k_mutex := ⟨none, 0⟩

/-- Modelled from the spec: `k_mutex_lock` (of `kernel.h`, absent from the
sources) called by thread `t`. A free mutex, or one the caller already holds,
is acquired and `0` is reported. Otherwise a zero-wait call reports an error
and changes nothing, and a call that waits for ever does not return while the
holder keeps the mutex: `none`. -/
def k_mutex_lock (m : k_mutex) (t : Tid) (timeout : k_timeout_t) :
    Option (Int × k_mutex) :=
  if m.lock_count = 0 ∨ m.owner = some t then
    some (0, ⟨some t, m.lock_count + 1⟩)
  else
    match timeout with
    | .K_NO_WAIT => some (-EBUSY, m)
    | .K_FOREVER => none

/-- Modelled from the spec: `k_mutex_unlock` (of `kernel.h`, absent from the
sources) called by thread `t`. Only the holder releases; the mutex becomes
free when its last nested acquisition is released. -/
def k_mutex_unlock (m : k_mutex) (t : Tid) : Int × k_mutex :=
  match m.owner with
  | none => (-EINVAL, m)
  | some o =>
    if o ≠ t then (-EPERM, m)
    else if 1 < m.lock_count then (0, ⟨some o, m.lock_count - 1⟩)
    else (0, ⟨none, 0⟩)

/-! ## `SystemMutex` (system_mutex.h, lines 14-54) -/

/-- The mutex adapter: it wraps one kernel mutex. -/
structure SystemMutex where
  _mutex : k_mutex
deriving DecidableEq

/-- The constructor: `k_mutex_init(&_mutex)`. -/
def SystemMutex.ctor : SystemMutex := ⟨k_mutex_init⟩

/-- Member `lock()`: `k_mutex_lock(&_mutex, K_FOREVER)`, result discarded.
`none` when the call does not return. -/
def SystemMutex.lock (self : SystemMutex) (t : Tid) : Option SystemMutex :=
  match k_mutex_lock self._mutex t .K_FOREVER with
  | some (_, m) => some ⟨m⟩
  | none => none

/-- Member `try_lock()`: `k_mutex_lock(&_mutex, K_NO_WAIT) == 0`. -/
def SystemMutex.try_lock (self : SystemMutex) (t : Tid) : Option (Bool × SystemMutex) :=
  match k_mutex_lock self._mutex t .K_NO_WAIT with
  | some (r, m) => some (decide (r = 0), ⟨m⟩)
  | none => none

/-- Member `unlock()`: `k_mutex_unlock(&_mutex)`, result discarded. -/
def SystemMutex.unlock (self : SystemMutex) (t : Tid) : SystemMutex :=
  ⟨(k_mutex_unlock self._mutex t).2⟩

/-- The mutex has no holder. -/
def SystemMutex.free (self : SystemMutex) : Prop :=
  self._mutex = ⟨none, 0⟩

instance (m : SystemMutex) : Decidable m.free := by
  unfold SystemMutex.free; infer_instance

/-- The mutex is held (once) by thread `t`. -/
def SystemMutex.held_by (self : SystemMutex) (t : Tid) : Prop :=
  self._mutex = ⟨some t, 1⟩

instance (m : SystemMutex) (t : Tid) : Decidable (m.held_by t) := by
  unfold SystemMutex.held_by; infer_instance

/-! ## Actions, outcomes and the trace -/

/-- How a call of a `void` function ends: it returns, or it raises `e`. -/
inductive Outcome (E : Type)
  | returned
  | raised (e : E)
deriving DecidableEq

/-- The operations recorded in the trace. -/
inductive Event
  | lock (t : Tid)
  | unlock (t : Tid)
  | invoke (t : Tid)
  | complete (t : Tid)
  | raise (t : Tid)
  | store_done (t : Tid)
deriving DecidableEq

/-- The event is the entry into an action. -/
def Event.is_invoke : Event → Bool
  | .invoke _ => true
  | _ => false

/-- The event is the normal return of an action. -/
def Event.is_complete : Event → Bool
  | .complete _ => true
  | _ => false

/-- What lies outside the flag: `user`, the state the guarded actions act on,
and `trace`, the operations performed so far, oldest first. -/
structure Env (U : Type) where
  user : U
  trace : List Event

/-- Append one event to the trace. -/
def Env.log {U : Type} (env : Env U) (ev : Event) : Env U :=
  ⟨env.user, env.trace ++ [ev]⟩

/-- How an operation that may wait on a mutex ends: it returns in state `s`,
it raises `e` in state `s`, or it never gets the mutex. -/
inductive Exec (E S : Type)
  | returned (s : S)
  | raised (e : E) (s : S)
  | blocked

/-! ## Callable dispatch (once.h, lines 66-85) -/

/-- How a member function declares its first parameter: as an object of its
own (`by_value`), or as a reference (`by_reference`: `R&&` or `const R&`). -/
inductive Passing
  | by_value
  | by_reference
deriving DecidableEq

/-- The callables `call` accepts, indexed by the pack of arguments they are
called with. `function`: anything that is not a member pointer, called as
`f(args...)`. `member_pointer`: a pointer to a member function of class `R`
whose first parameter is again an `R`, declared as `first` says; `m obj
params` is the body of the member run on the object `obj` with the parameters
`params`; `moved_from x` is the value the move constructor of `R` leaves in
an object that held `x` (the identity for a class that is copied bit by bit,
the empty string for a string). The member acts on the user state: what it
does to its object is lost with it, since `call_member` owns that object. -/
inductive Callable (U E : Type) : Type → Type 1
  | function {A : Type} (f : A → U → Outcome E × U) : Callable U E A
  | member_pointer {R A : Type} (first : Passing) (moved_from : R → R)
      (m : R → R × A → U → Outcome E × U) : Callable U E (R × A)

/-- The trait `std::is_member_pointer` on the type of a callable. -/
def is_member_pointer {U E A : Type} : Callable U E A → Bool
  | .function _ => false
  | .member_pointer _ _ _ => true

/-- Source `call_member` (lines 67-71):
`(forward<Arg1>(arg1).*f)(forward<Arg1>(arg1), forward<Args>(args)...)`.
`arg1` is a parameter by value, an object of `call_member` that holds the
value of the receiver, and both `forward<Arg1>(arg1)` are rvalues that refer
to it. The parameters of the member are set up before its body runs: a first
parameter by reference is bound to `arg1`, so the body runs on `arg1` as it
is; a first parameter by value is move-constructed from `arg1`, so it takes
the value and the body runs on what the move left in `arg1`. -/
def call_member {U E R A : Type} (first : Passing) (moved_from : R → R)
    (m : R → R × A → U → Outcome E × U) (arg1 : R) (args : A) : U → Outcome E × U :=
  match first with
  | .by_reference => m arg1 (arg1, args)
  | .by_value => m (moved_from arg1) (arg1, args)

/-- Source `call` (lines 74-85), both overloads: the first is enabled when the
callable is not a member pointer and applies it to the arguments, the second
is enabled when it is one and hands over to `call_member`. -/
def call {U E A : Type} : Callable U E A → A → U → Outcome E × U
  | .function f, args => f args
  | .member_pointer first moved_from m, (arg1, args) =>
    call_member first moved_from m arg1 args

/-! ## `simply_lock_guard` (system_mutex.h, lines 74-94) -/

/-- Constructor in standard mode (lines 80-81): `_M_device.lock()`. -/
def simply_lock_guard.ctor {U : Type} (t : Tid) (__m : SystemMutex) (env : Env U) :
    Option (SystemMutex × Env U) :=
  match __m.lock t with
  | some m => some (m, env.log (.lock t))
  | none => none

/-- Constructor in adopt mode (lines 83-84): the caller owns the mutex. -/
def simply_lock_guard.adopt {U : Type} (_t : Tid) (__m : SystemMutex) (env : Env U) :
    SystemMutex × Env U :=
  (__m, env)

/-- Destructor (lines 86-87): `_M_device.unlock()`. -/
def simply_lock_guard.dtor {U : Type} (t : Tid) (_M_device : SystemMutex) (env : Env U) :
    SystemMutex × Env U :=
  (_M_device.unlock t, env.log (.unlock t))

/-! ## `once_flag` and `call_once` (once.h, lines 45-101) -/

/-- The flag: its mutex and its done marker. -/
structure once_flag where
  mutex_ : SystemMutex
  done_ : Bool
deriving DecidableEq

/-- The constructor `once_flag() : mutex_{}, done_{}`. -/
def once_flag.ctor : once_flag := ⟨SystemMutex.ctor, false⟩

/-- Run the guarded action on the user state and record how it went. -/
def run_action {U E : Type} (t : Tid) (act : U → Outcome E × U) (env : Env U) :
    Outcome E × Env U :=
  match act env.user with
  | (.returned, u) => (.returned, ⟨u, env.trace ++ [.invoke t, .complete t]⟩)
  | (.raised e, u) => (.raised e, ⟨u, env.trace ++ [.invoke t, .raise t]⟩)

/-- Source `call_once` (lines 88-101) called by thread `t`, as one step. The
guard built at line 94 is destroyed wherever the scope is left: at the
`return` of line 97, at the end of the body, and when the action raises. -/
def call_once {U E A : Type} (t : Tid) (flag : once_flag) (f : Callable U E A) (args : A)
    (env : Env U) : Exec E (once_flag × Env U) :=
  if flag.done_ = true then
    .returned (flag, env)
  else
    match simply_lock_guard.ctor t flag.mutex_ env with
    | none => .blocked
    | some (m1, env1) =>
      if flag.done_ = true then
        let (m2, env2) := simply_lock_guard.dtor t m1 env1
        .returned (⟨m2, flag.done_⟩, env2)
      else
        match run_action t (call f args) env1 with
        | (.raised e, env2) =>
          let (m3, env3) := simply_lock_guard.dtor t m1 env2
          .raised e (⟨m3, flag.done_⟩, env3)
        | (.returned, env2) =>
          let (m3, env3) := simply_lock_guard.dtor t m1 (env2.log (.store_done t))
          .returned (⟨m3, true⟩, env3)

/-! ## The wrappers (once.h, lines 105-129) -/

/-- The alias `ProtobufOnceType`. -/
abbrev ProtobufOnceType := once_flag

/-- Change the state an execution ends in. -/
def Exec.map {E S S2 : Type} (g : S → S2) : Exec E S → Exec E S2
  | .returned s => .returned (g s)
  | .raised e s => .raised e (g s)
  | .blocked => .blocked

/-- Source `GoogleOnceInit` (lines 107-109): `call_once(*once, init_func)`,
a function pointer taking no argument. -/
def GoogleOnceInit {U E : Type} (t : Tid) (once : ProtobufOnceType)
    (init_func : U → Outcome E × U) (env : Env U) :
    Exec E (ProtobufOnceType × Env U) :=
  call_once t once (.function (fun (_ : Unit) => init_func)) () env

/-- Source `GoogleOnceInitArg` (lines 111-115):
`call_once(*once, init_func, arg)`. -/
def GoogleOnceInitArg {U E Arg : Type} (t : Tid) (once : ProtobufOnceType)
    (init_func : Arg → U → Outcome E × U) (arg : Arg) (env : Env U) :
    Exec E (ProtobufOnceType × Env U) :=
  call_once t once (.function init_func) arg env

/-- The class `GoogleOnceDynamic` (lines 117-129): one private flag. -/
structure GoogleOnceDynamic where
  state_ : ProtobufOnceType
deriving DecidableEq

/-- A newly constructed `GoogleOnceDynamic`. -/
def GoogleOnceDynamic.ctor : GoogleOnceDynamic := ⟨once_flag.ctor⟩

/-- Source `GoogleOnceDynamic::Init` (lines 123-126):
`GoogleOnceInitArg<T>(&this->state_, func_with_arg, arg)`. -/
def GoogleOnceDynamic.Init {U E T : Type} (self : GoogleOnceDynamic) (t : Tid)
    (func_with_arg : T → U → Outcome E × U) (arg : T) (env : Env U) :
    Exec E (GoogleOnceDynamic × Env U) :=
  (GoogleOnceInitArg t self.state_ func_with_arg arg env).map
    (fun r => (GoogleOnceDynamic.mk r.1, r.2))

/-! ## Sequences of invocations -/

/-- One invocation of `call_once`: the calling thread, the callable and its
arguments. -/
structure Invocation (U E : Type) where
  t : Tid
  A : Type
  f : Callable U E A
  args : A

/-- Perform the invocation on a flag and its surroundings. -/
def Invocation.exec {U E : Type} (c : Invocation U E) (s : once_flag × Env U) :
    Exec E (once_flag × Env U) :=
  call_once c.t s.1 c.f c.args s.2

/-- The results of the invocations `cs` made one after the other from `s`; an
invocation that raises is followed by the next one. The list stops short at
an invocation that never gets the mutex. -/
def outcomes {U E : Type} :
    List (Invocation U E) → once_flag × Env U → List (Exec E (once_flag × Env U))
  | [], _ => []
  | c :: cs, s =>
    match c.exec s with
    | .returned s1 => .returned s1 :: outcomes cs s1
    | .raised e s1 => .raised e s1 :: outcomes cs s1
    | .blocked => [.blocked]

/-- The states met when the invocations `cs` are made one after the other
from `s`: `s` itself, then the state after each invocation that ended. -/
def history {U E : Type} :
    List (Invocation U E) → once_flag × Env U → List (once_flag × Env U)
  | [], s => [s]
  | c :: cs, s =>
    match c.exec s with
    | .returned s1 => s :: history cs s1
    | .raised _ s1 => s :: history cs s1
    | .blocked => [s]

/-- Some guarded action has run to completion. -/
def completed (tr : List Event) : Prop :=
  tr.any Event.is_complete = true

instance (tr : List Event) : Decidable (completed tr) := by
  unfold completed; infer_instance

/-- Between invocations: the mutex of the flag is free, and the done marker is
true exactly when some guarded action has run to completion. -/
def settled {U : Type} (s : once_flag × Env U) : Prop :=
  s.1.mutex_.free ∧ (s.1.done_ = true ↔ completed s.2.trace)

/-! ## Interleaved executions of `call_once` -/

/-- Where a thread stands in its invocation of `call_once`. -/
inductive Pc (E : Type)
  /-- Before the test of line 91. -/
  | entry
  /-- At line 94: the guard is being built, `lock()` has not returned. -/
  | guard_ctor
  /-- Before the test of line 96. -/
  | recheck
  /-- At line 99, the action not yet entered. -/
  | call
  /-- Within the action. -/
  | in_action
  /-- Before the assignment of line 100. -/
  | store_done
  /-- Leaving the scope of the guard with result `r`: before `unlock()`. -/
  | guard_dtor (r : Outcome E)
  /-- The invocation is over: it returned, or raised, to its caller. -/
  | finished (r : Outcome E)
deriving DecidableEq

/-- The thread is within the scope of its guard. -/
def Pc.guarded {E : Type} : Pc E → Bool
  | .recheck | .call | .in_action | .store_done | .guard_dtor _ => true
  | .entry | .guard_ctor | .finished _ => false

/-- The steps the invocation still has to make, at most. -/
def Pc.remaining {E : Type} : Pc E → Nat
  | .entry => 7
  | .guard_ctor => 6
  | .recheck => 5
  | .call => 4
  | .in_action => 3
  | .store_done => 2
  | .guard_dtor _ => 1
  | .finished _ => 0

/-- A flag shared by the threads `0 .. pcs.length - 1`, each making one
invocation of `call_once` on it. -/
structure Sys (U E : Type) where
  flag : once_flag
  env : Env U
  pcs : List (Pc E)

/-- The start: a newly constructed flag, an empty trace, every thread about
to enter `call_once`. -/
def Sys.start {U E : Type} (n : Nat) (u : U) : Sys U E :=
  ⟨once_flag.ctor, ⟨u, []⟩, List.replicate n .entry⟩

/-- One step of thread `t`, whose action is `acts t`; `none` when the thread
cannot move: it does not exist, it is over, or it waits for the mutex. -/
def step {U E : Type} (acts : Tid → U → Outcome E × U) (t : Tid) (s : Sys U E) :
    Option (Sys U E) :=
  match s.pcs[t]? with
  | none => none
  | some .entry =>
    some ⟨s.flag, s.env,
      s.pcs.set t (if s.flag.done_ = true then .finished .returned else .guard_ctor)⟩
  | some .guard_ctor =>
    match simply_lock_guard.ctor t s.flag.mutex_ s.env with
    | none => none
    | some (m, env) => some ⟨⟨m, s.flag.done_⟩, env, s.pcs.set t .recheck⟩
  | some .recheck =>
    some ⟨s.flag, s.env,
      s.pcs.set t (if s.flag.done_ = true then .guard_dtor .returned else .call)⟩
  | some .call =>
    some ⟨s.flag, s.env.log (.invoke t), s.pcs.set t .in_action⟩
  | some .in_action =>
    match acts t s.env.user with
    | (.returned, u) =>
      some ⟨s.flag, ⟨u, s.env.trace ++ [.complete t]⟩, s.pcs.set t .store_done⟩
    | (.raised e, u) =>
      some ⟨s.flag, ⟨u, s.env.trace ++ [.raise t]⟩, s.pcs.set t (.guard_dtor (.raised e))⟩
  | some .store_done =>
    some ⟨⟨s.flag.mutex_, true⟩, s.env.log (.store_done t), s.pcs.set t (.guard_dtor .returned)⟩
  | some (.guard_dtor r) =>
    match simply_lock_guard.dtor t s.flag.mutex_ s.env with
    | (m, env) => some ⟨⟨m, s.flag.done_⟩, env, s.pcs.set t (.finished r)⟩
  | some (.finished _) => none

/-- Follow a schedule: the listed threads move in turn; a thread that cannot
move when its turn comes leaves the state as it is. -/
def run {U E : Type} (acts : Tid → U → Outcome E × U) (sched : List Tid) (s : Sys U E) :
    Sys U E :=
  sched.foldl (fun s t => (step acts t s).getD s) s

/-- The steps all threads together still have to make, at most. -/
def Sys.remaining {U E : Type} (s : Sys U E) : Nat :=
  (s.pcs.map Pc.remaining).sum

/-- The invocation is over. -/
def Pc.is_finished {E : Type} : Pc E → Bool
  | .finished _ => true
  | _ => false

/-- Every thread has left `call_once`. -/
def Sys.all_finished {U E : Type} (s : Sys U E) : Prop :=
  s.pcs.all Pc.is_finished = true

instance {U E : Type} (s : Sys U E) : Decidable s.all_finished := by
  unfold Sys.all_finished; infer_instance

/-- The number of events of the trace that satisfy `p`. -/
def count_events (p : Event → Bool) (tr : List Event) : Nat :=
  tr.countP p

/-- The number of times thread `t` has locked the mutex. -/
def locks (tr : List Event) (t : Tid) : Nat :=
  tr.count (.lock t)

/-- The number of times thread `t` has unlocked the mutex. -/
def unlocks (tr : List Event) (t : Tid) : Nat :=
  tr.count (.unlock t)

/-- The mutex is free or held once, exactly the threads within the scope of
their guard hold it, and who holds it is within that scope. -/
structure Inv {U E : Type} (s : Sys U E) : Prop where
  mutex : s.flag.mutex_.free ∨ ∃ t, s.flag.mutex_.held_by t
  guarded_holds : ∀ (t : Tid) (pc : Pc E), s.pcs[t]? = some pc → pc.guarded = true →
    s.flag.mutex_.held_by t
  held_guarded : ∀ t : Tid, s.flag.mutex_.held_by t →
    ∃ pc : Pc E, s.pcs[t]? = some pc ∧ pc.guarded = true

/-- What a thread at `pc` has done to the mutex so far: nothing before its
guard is built, one lock within the scope of the guard, as many unlocks as
locks (at most one) once it has left `call_once`. -/
def balance {E : Type} (pc : Pc E) (l ul : Nat) : Prop :=
  match pc with
  | .entry | .guard_ctor => l = 0 ∧ ul = 0
  | .recheck | .call | .in_action | .store_done | .guard_dtor _ => l = 1 ∧ ul = 0
  | .finished _ => l = ul ∧ l ≤ 1

/-- Every thread is in balance with the trace. -/
def Bal {U E : Type} (s : Sys U E) : Prop :=
  ∀ (t : Tid) (pc : Pc E), s.pcs[t]? = some pc →
    balance pc (locks s.env.trace t) (unlocks s.env.trace t)

/-- The number of actions entered so far. -/
def invokes (tr : List Event) : Nat :=
  count_events Event.is_invoke tr

/-- The number of actions that have returned so far. -/
def completions (tr : List Event) : Nat :=
  count_events Event.is_complete tr

/-- What the position of one thread says about the shared state, when every
thread runs the action `act`, which does not raise, from the user state `u0`. -/
def obligation {U E : Type} (act : U → Outcome E × U) (u0 : U) (flag : once_flag)
    (env : Env U) : Pc E → Prop
  | .entry | .guard_ctor | .recheck => True
  | .call => flag.done_ = false
  | .in_action =>
    flag.done_ = false ∧ invokes env.trace = 1 ∧ completions env.trace = 0 ∧ env.user = u0
  | .store_done =>
    flag.done_ = false ∧ invokes env.trace = 1 ∧ completions env.trace = 1 ∧
      env.user = (act u0).2
  | .guard_dtor r => r = .returned ∧ flag.done_ = true
  | .finished r => r = .returned ∧ flag.done_ = true

/-- The action has run once when the flag is done, is running or has just
run when a thread is at it, and has not been entered otherwise. -/
structure Single {U E : Type} (act : U → Outcome E × U) (u0 : U) (s : Sys U E) : Prop where
  threads : ∀ (t : Tid) (pc : Pc E), s.pcs[t]? = some pc → obligation act u0 s.flag s.env pc
  isdone : s.flag.done_ = true →
    invokes s.env.trace = 1 ∧ completions s.env.trace = 1 ∧ s.env.user = (act u0).2
  idle : s.flag.done_ = false →
    (∀ (t : Tid) (pc : Pc E), s.pcs[t]? = some pc → pc ≠ .in_action ∧ pc ≠ .store_done) →
    invokes s.env.trace = 0 ∧ completions s.env.trace = 0 ∧ s.env.user = u0

/-- A thread about to set the marker has seen its own action return. -/
def Returned {U E : Type} (s : Sys U E) : Prop :=
  ∀ t : Tid, s.pcs[t]? = some .store_done → Event.complete t ∈ s.env.trace

/-- The thread that performed the operation. -/
def Event.tid : Event → Tid
  | .lock t | .unlock t | .invoke t | .complete t | .raise t | .store_done t => t

/-- The operations of thread `t` in the trace, in order. -/
def events_of (t : Tid) (tr : List Event) : List Event :=
  tr.filter (fun ev => ev.tid == t)

/-- The operations an invocation by thread `t` has performed when it stands at
a given place: the prefixes of `lock, unlock` (the re-check found the marker
set), of `lock, invoke, complete, store_done, unlock` (the action returned)
and of `lock, invoke, raise, unlock` (the action raised); nothing at all when
the first test found the marker set. -/
def effects {E : Type} (t : Tid) : Pc E → List Event → Prop
  | .entry, evs => evs = []
  | .guard_ctor, evs => evs = []
  | .recheck, evs => evs = [.lock t]
  | .call, evs => evs = [.lock t]
  | .in_action, evs => evs = [.lock t, .invoke t]
  | .store_done, evs => evs = [.lock t, .invoke t, .complete t]
  | .guard_dtor .returned, evs =>
    evs = [.lock t] ∨ evs = [.lock t, .invoke t, .complete t, .store_done t]
  | .guard_dtor (.raised _), evs => evs = [.lock t, .invoke t, .raise t]
  | .finished .returned, evs =>
    evs = [] ∨ evs = [.lock t, .unlock t] ∨
      evs = [.lock t, .invoke t, .complete t, .store_done t, .unlock t]
  | .finished (.raised _), evs => evs = [.lock t, .invoke t, .raise t, .unlock t]

/-- Every thread has performed the operations its place stands for. -/
def Seq {U E : Type} (s : Sys U E) : Prop :=
  ∀ (t : Tid) (pc : Pc E), s.pcs[t]? = some pc → effects t pc (events_of t s.env.trace)

/-! ## A member that records what it is called with -/

/-- The body of a member function of a class that holds one string, with
parameters `(first, n)`: it stores its own string, the string of `first` and
`n` in the user state, and returns. -/
def record : String → String × Nat → Option (String × String × Nat) →
    Outcome Unit × Option (String × String × Nat) :=
  fun this params _ => (.returned, some (this, params.1, params.2))

/-- A pointer to that member, which takes `first` by value; a move leaves
the empty string in the object moved from. -/
def record_by_value : Callable (Option (String × String × Nat)) Unit (String × Nat) :=
  .member_pointer .by_value (fun _ => "") record

/-! ## Two executions -/

/-- The action of the examples: it increments a counter and returns. -/
def increment : Callable Nat Unit Unit :=
  .function (fun _ u => (.returned, u + 1))

/-- Three threads race to increment a counter. All three find the marker
false at line 91; thread 2 gets the mutex first and runs the action; threads
1 and 0 then get the mutex in turn and find the marker set at line 96. -/
def race3 : Sys Nat Unit :=
  run (fun _ => call increment ()) [0, 1, 2, 2, 2, 2, 2, 2, 2, 1, 1, 1, 0, 0, 0] (Sys.start 3 0)

/-- Two threads, of which thread 1 waits for the mutex while thread 0 runs
the action, then finds the marker set at line 96 and leaves. -/
def race2 : Sys Nat Unit :=
  run (fun _ => call increment ()) [0, 1, 0, 0, 0, 0, 0, 0, 1, 1, 1] (Sys.start 2 0)

/-! ## Big-step facts -/

section BigStep

variable {U E A : Type}

/-- A callable that is not a member pointer is applied to exactly the
arguments given. -/
theorem call_function (f : A → U → Outcome E × U) (args : A) :
    is_member_pointer (Callable.function f) = false ∧
    call (Callable.function f) args = f args :=
  ⟨rfl, rfl⟩

/-- A member that takes its first parameter by reference runs on the
receiver and gets the receiver again as first argument. -/
theorem call_member_by_reference {R : Type} (moved_from : R → R)
    (m : R → R × A → U → Outcome E × U) (r : R) (rest : A) :
    is_member_pointer (Callable.member_pointer .by_reference moved_from m) = true ∧
    call (Callable.member_pointer .by_reference moved_from m) (r, rest) = m r (r, rest) :=
  ⟨rfl, rfl⟩

/-- A member that takes its first parameter by value gets the receiver as
first argument and runs on what the move left of it. -/
theorem call_member_by_value {R : Type} (moved_from : R → R)
    (m : R → R × A → U → Outcome E × U) (r : R) (rest : A) :
    is_member_pointer (Callable.member_pointer .by_value moved_from m) = true ∧
    call (Callable.member_pointer .by_value moved_from m) (r, rest) =
      m (moved_from r) (r, rest) :=
  ⟨rfl, rfl⟩

theorem lock_free (m : SystemMutex) (t : Tid) (h : m.free) :
    m.lock t = some ⟨⟨some t, 1⟩⟩ := by
  unfold SystemMutex.free at h
  simp [SystemMutex.lock, k_mutex_lock, h]

theorem unlock_held (t : Tid) :
    (SystemMutex.mk ⟨some t, 1⟩).unlock t = ⟨⟨none, 0⟩⟩ := by
  simp [SystemMutex.unlock, k_mutex_unlock]

theorem call_once_done (t : Tid) (flag : once_flag) (f : Callable U E A) (args : A)
    (env : Env U) (h : flag.done_ = true) :
    call_once t flag f args env = .returned (flag, env) := by
  simp [call_once, h]

theorem call_once_returns (t : Tid) (flag : once_flag) (f : Callable U E A) (args : A)
    (env : Env U) (u : U) (hd : flag.done_ = false) (hm : flag.mutex_.free)
    (hf : call f args env.user = (.returned, u)) :
    call_once t flag f args env =
      .returned (⟨flag.mutex_, true⟩,
        ⟨u, env.trace ++ [.lock t, .invoke t, .complete t, .store_done t, .unlock t]⟩) := by
  have hm2 : flag.mutex_ = ⟨⟨none, 0⟩⟩ := by
    cases hx : flag.mutex_; unfold SystemMutex.free at hm; simp_all
  cases flag with
  | mk mu d =>
    simp only at hd hm2
    subst hd; subst hm2
    simp [call_once, simply_lock_guard.ctor, lock_free _ t hm, run_action, Env.log, hf,
      simply_lock_guard.dtor, unlock_held]

theorem call_once_raises (t : Tid) (flag : once_flag) (f : Callable U E A) (args : A)
    (env : Env U) (e : E) (u : U) (hd : flag.done_ = false) (hm : flag.mutex_.free)
    (hf : call f args env.user = (.raised e, u)) :
    call_once t flag f args env =
      .raised e (flag, ⟨u, env.trace ++ [.lock t, .invoke t, .raise t, .unlock t]⟩) := by
  have hm2 : flag.mutex_ = ⟨⟨none, 0⟩⟩ := by
    cases hx : flag.mutex_; unfold SystemMutex.free at hm; simp_all
  cases flag with
  | mk mu d =>
    simp only at hd hm2
    subst hd; subst hm2
    simp [call_once, simply_lock_guard.ctor, lock_free _ t hm, run_action, Env.log, hf,
      simply_lock_guard.dtor, unlock_held]

theorem call_once_returned_done (t : Tid) (flag : once_flag) (f : Callable U E A) (args : A)
    (env : Env U) (s : once_flag × Env U)
    (h : call_once t flag f args env = .returned s) : s.1.done_ = true := by
  unfold call_once at h
  split at h
  · next hd => cases h; exact hd
  · next hd =>
    split at h
    · cases h
    · split at h
      · cases h
      · cases h; rfl

theorem outcomes_done (cs : List (Invocation U E)) (s : once_flag × Env U)
    (h : s.1.done_ = true) :
    outcomes cs s = List.replicate cs.length (.returned s) := by
  induction cs with
  | nil => rfl
  | cons c cs ih =>
    have hc : c.exec s = .returned s := by
      unfold Invocation.exec
      rw [call_once_done _ _ _ _ _ h]
    simp [outcomes, hc, ih, List.replicate_succ]

theorem completed_append_raise (tr : List Event) (t : Tid) :
    completed (tr ++ [.lock t, .invoke t, .raise t, .unlock t]) ↔ completed tr := by
  simp [completed, Event.is_complete]

theorem completed_append_complete (tr : List Event) (t : Tid) :
    completed (tr ++ [.lock t, .invoke t, .complete t, .store_done t, .unlock t]) := by
  simp [completed, Event.is_complete]

theorem settled_start (u : U) : settled (once_flag.ctor, (⟨u, []⟩ : Env U)) := by
  refine ⟨rfl, ?_⟩
  simp [once_flag.ctor, completed]

/-- From a settled state an invocation ends, in a settled state, and it
changes nothing when the flag was done. -/
theorem exec_settled (c : Invocation U E) (s : once_flag × Env U) (h : settled s) :
    ∃ s1, (c.exec s = .returned s1 ∨ ∃ e, c.exec s = .raised e s1) ∧ settled s1 ∧
      (s.1.done_ = true → s1 = s) := by
  obtain ⟨flag, env⟩ := s
  obtain ⟨hm, hc⟩ := h
  simp only at hm hc
  cases hd : flag.done_ with
  | true =>
    refine ⟨(flag, env), Or.inl ?_, ⟨hm, hc⟩, fun _ => rfl⟩
    exact call_once_done c.t flag c.f c.args env hd
  | false =>
    have hnc : ¬ completed env.trace := by
      intro hx
      have := hc.2 hx
      simp [hd] at this
    cases hf : call c.f c.args env.user with
    | mk o u1 =>
      cases o with
      | returned =>
        refine ⟨_, Or.inl (call_once_returns c.t flag c.f c.args env u1 hd hm hf), ⟨hm, ?_⟩, ?_⟩
        · simp only [true_iff]
          exact completed_append_complete _ _
        · intro hx; simp at hx
      | raised e =>
        refine ⟨_, Or.inr ⟨e, call_once_raises c.t flag c.f c.args env e u1 hd hm hf⟩,
          ⟨hm, ?_⟩, ?_⟩
        · simp only [hd, completed_append_raise]
          simp [hnc]
        · intro hx; simp at hx

theorem history_done (cs : List (Invocation U E)) (s : once_flag × Env U)
    (h : s.1.done_ = true) :
    history cs s = List.replicate (cs.length + 1) s := by
  induction cs with
  | nil => rfl
  | cons c cs ih =>
    have hc : c.exec s = .returned s := by
      unfold Invocation.exec
      rw [call_once_done _ _ _ _ _ h]
    simp [history, hc, ih, List.replicate_succ]

theorem history_settled (cs : List (Invocation U E)) (s : once_flag × Env U)
    (h : settled s) :
    (history cs s).length = cs.length + 1 ∧
    (∀ x ∈ history cs s, settled x) ∧
    ∃ a b, (history cs s).map (fun x => x.1.done_) =
      List.replicate a false ++ List.replicate b true := by
  induction cs generalizing s with
  | nil =>
    refine ⟨rfl, ?_, ?_⟩
    · intro x hx
      simp [history] at hx
      subst hx; exact h
    · cases hd : s.1.done_ with
      | true => exact ⟨0, 1, by simp [history, hd]⟩
      | false => exact ⟨1, 0, by simp [history, hd]⟩
  | cons c cs ih =>
    obtain ⟨s1, hex, hs1, hsame⟩ := exec_settled c s h
    obtain ⟨hlen, hall, a, b, hab⟩ := ih s1 hs1
    have hh : history (c :: cs) s = s :: history cs s1 := by
      rcases hex with hex | ⟨e, hex⟩ <;> simp [history, hex]
    rw [hh]
    refine ⟨by simp [hlen], ?_, ?_⟩
    · intro x hx
      rcases List.mem_cons.1 hx with hx | hx
      · subst hx; exact h
      · exact hall x hx
    · cases hd : s.1.done_ with
      | true =>
        have h1 : s1 = s := hsame hd
        subst h1
        refine ⟨0, cs.length + 2, ?_⟩
        rw [history_done cs s1 hd]
        simp [hd, List.replicate_succ]
      | false =>
        refine ⟨a + 1, b, ?_⟩
        simp [hd, hab, List.replicate_succ]

end BigStep

/-! ## Small-step facts -/

section SmallStep

variable {U E : Type}

theorem get_set_self (l : List (Pc E)) (t : Tid) (pc q : Pc E) (h : l[t]? = some pc) :
    (l.set t q)[t]? = some q := by
  have := (List.getElem?_eq_some.1 h).1
  simp [List.getElem?_set, this]

theorem get_set_cases (l : List (Pc E)) (t t2 : Tid) (pc q r : Pc E) (h : l[t]? = some pc)
    (h2 : (l.set t q)[t2]? = some r) :
    (t2 = t ∧ r = q) ∨ (t2 ≠ t ∧ l[t2]? = some r) := by
  by_cases ht : t = t2
  · subst ht
    rw [get_set_self l t pc q h] at h2
    left; exact ⟨rfl, (Option.some.inj h2).symm⟩
  · right
    rw [List.getElem?_set_ne ht] at h2
    exact ⟨fun hx => ht hx.symm, h2⟩

theorem held_by_inj (m : SystemMutex) (t t2 : Tid) (h : m.held_by t) (h2 : m.held_by t2) :
    t = t2 := by
  unfold SystemMutex.held_by at h h2
  rw [h] at h2
  simpa using h2

theorem not_free_of_held (m : SystemMutex) (t : Tid) (h : m.held_by t) : ¬ m.free := by
  unfold SystemMutex.held_by at h
  unfold SystemMutex.free
  rw [h]
  simp

/-- Two threads within the scope of their guards are the same thread. -/
theorem Inv.exclusive {s : Sys U E} (hI : Inv s) (t t2 : Tid) (pc pc2 : Pc E)
    (h : s.pcs[t]? = some pc) (hg : pc.guarded = true)
    (h2 : s.pcs[t2]? = some pc2) (hg2 : pc2.guarded = true) : t = t2 :=
  held_by_inj _ _ _ (hI.guarded_holds t pc h hg) (hI.guarded_holds t2 pc2 h2 hg2)

/-- A step that leaves the mutex alone and keeps the thread on the same side
of its guard keeps the invariant. -/
theorem inv_set_same {flag : once_flag} {env : Env U} {pcs : List (Pc E)} (d : Bool)
    (env2 : Env U) (hI : Inv ⟨flag, env, pcs⟩) (t : Tid) (pc q : Pc E) (hp : pcs[t]? = some pc)
    (hg : q.guarded = pc.guarded) :
    Inv ⟨⟨flag.mutex_, d⟩, env2, pcs.set t q⟩ := by
  refine ⟨hI.mutex, ?_, ?_⟩
  · intro t2 r h2 hr
    rcases get_set_cases pcs t t2 pc q r hp h2 with ⟨rfl, rfl⟩ | ⟨_, h3⟩
    · exact hI.guarded_holds _ pc hp (hg ▸ hr)
    · exact hI.guarded_holds t2 r h3 hr
  · intro t2 h2
    obtain ⟨r, hr, hrg⟩ := hI.held_guarded t2 h2
    by_cases ht : t2 = t
    · subst ht
      refine ⟨q, get_set_self pcs _ pc q hp, ?_⟩
      rw [hp] at hr
      cases hr
      rw [hg]; exact hrg
    · refine ⟨r, ?_, hrg⟩
      show (pcs.set t q)[t2]? = some r
      rw [List.getElem?_set_ne (fun hx => ht hx.symm)]
      exact hr

/-- A thread waiting to build its guard does not hold the mutex, so when the
invariant holds the mutex it gets was free. -/
theorem Inv.ctor_free {s : Sys U E} (hI : Inv s) (t : Tid)
    (hp : s.pcs[t]? = some .guard_ctor) (m : SystemMutex) (env : Env U)
    (hc : simply_lock_guard.ctor t s.flag.mutex_ s.env = some (m, env)) :
    s.flag.mutex_.free ∧ m.held_by t ∧ env = s.env.log (.lock t) := by
  have hfree : s.flag.mutex_.free := by
    rcases hI.mutex with hf | ⟨t0, h0⟩
    · exact hf
    · exfalso
      obtain ⟨r, hr, hrg⟩ := hI.held_guarded t0 h0
      have hne : t0 ≠ t := by
        intro hx; subst hx
        rw [hp] at hr; cases hr
        simp [Pc.guarded] at hrg
      unfold SystemMutex.held_by at h0
      have hne2 : ¬ (some t0 : Option Tid) = some t := by simpa using hne
      simp [simply_lock_guard.ctor, SystemMutex.lock, k_mutex_lock, h0, hne2] at hc
  refine ⟨hfree, ?_⟩
  simp [simply_lock_guard.ctor, lock_free _ t hfree] at hc
  obtain ⟨h1, h2⟩ := hc
  subst h1; subst h2
  exact ⟨rfl, rfl⟩

/-- One step keeps the invariant of the mutex. -/
theorem inv_step (acts : Tid → U → Outcome E × U) (t : Tid) (s s2 : Sys U E)
    (hI : Inv s) (h : step acts t s = some s2) : Inv s2 := by
  obtain ⟨flag, env, pcs⟩ := s
  unfold Once.step at h
  simp only at h
  split at h
  · cases h
  · next hp =>
    cases h
    have := inv_set_same (flag.done_) (env) hI t .entry
      (if flag.done_ = true then .finished .returned else .guard_ctor) hp
      (by split <;> rfl)
    simpa using this
  · next hp =>
    split at h
    · cases h
    · next m env1 hc =>
      cases h
      obtain ⟨hfree, hheld, _⟩ := Inv.ctor_free hI t hp m env1 hc
      refine ⟨Or.inr ⟨t, hheld⟩, ?_, ?_⟩
      · intro t2 r h2 hr
        rcases get_set_cases pcs t t2 _ _ r hp h2 with ⟨rfl, rfl⟩ | ⟨_, h3⟩
        · exact hheld
        · exact absurd hfree (not_free_of_held _ _ (hI.guarded_holds t2 r h3 hr))
      · intro t2 h2
        have : t = t2 := held_by_inj _ _ _ hheld h2
        subst this
        exact ⟨.recheck, get_set_self pcs _ _ _ hp, rfl⟩
  · next hp =>
    cases h
    have := inv_set_same (flag.done_) (env) hI t .recheck
      (if flag.done_ = true then .guard_dtor .returned else .call) hp
      (by split <;> rfl)
    simpa using this
  · next hp =>
    cases h
    have := inv_set_same (flag.done_) (env.log (.invoke t)) hI t .call
      .in_action hp rfl
    simpa using this
  · next hp =>
    split at h
    · next u hact =>
      cases h
      have := inv_set_same (flag.done_) (⟨u, env.trace ++ [.complete t]⟩) hI t
        .in_action .store_done hp rfl
      simpa using this
    · next e u hact =>
      cases h
      have := inv_set_same (flag.done_) (⟨u, env.trace ++ [.raise t]⟩) hI t
        .in_action (.guard_dtor (.raised e)) hp rfl
      simpa using this
  · next hp =>
    cases h
    exact inv_set_same (true) (env.log (.store_done t)) hI t
      .store_done (.guard_dtor .returned) hp rfl
  · next r hp =>
    cases h
    have hheld : flag.mutex_.held_by t := hI.guarded_holds t _ hp rfl
    have hun : (flag.mutex_.unlock t).free := by
      unfold SystemMutex.held_by at hheld
      simp [SystemMutex.unlock, k_mutex_unlock, hheld, SystemMutex.free]
    refine ⟨Or.inl hun, ?_, ?_⟩
    · intro t2 q h2 hq
      rcases get_set_cases pcs t t2 _ _ q hp h2 with ⟨rfl, rfl⟩ | ⟨hne, h3⟩
      · simp [Pc.guarded] at hq
      · exact absurd (held_by_inj _ _ _ (hI.guarded_holds t2 q h3 hq) hheld) hne
    · intro t2 h2
      exact absurd hun (not_free_of_held _ _ h2)
  · cases h

theorem run_nil (acts : Tid → U → Outcome E × U) (s : Sys U E) : run acts [] s = s := rfl

theorem run_cons (acts : Tid → U → Outcome E × U) (t : Tid) (sched : List Tid) (s : Sys U E) :
    run acts (t :: sched) s = run acts sched ((step acts t s).getD s) := rfl

/-- A property that every step keeps holds all along a schedule. -/
theorem run_keeps (acts : Tid → U → Outcome E × U) (P : Sys U E → Prop)
    (hstep : ∀ t s s2, P s → step acts t s = some s2 → P s2)
    (sched : List Tid) (s : Sys U E) (h : P s) : P (run acts sched s) := by
  induction sched generalizing s with
  | nil => exact h
  | cons t sched ih =>
    rw [run_cons]
    apply ih
    cases hs : step acts t s with
    | none => simpa using h
    | some s2 => simpa using hstep t s s2 h hs

theorem inv_start (n : Nat) (u : U) : Inv (Sys.start n u : Sys U E) := by
  refine ⟨Or.inl rfl, ?_, ?_⟩
  · intro t pc h hg
    simp only [Sys.start, List.getElem?_replicate] at h
    split at h
    · cases h; simp [Pc.guarded] at hg
    · cases h
  · intro t h
    exact absurd (show (Sys.start n u : Sys U E).flag.mutex_.free from rfl)
      (not_free_of_held _ _ h)

theorem inv_run (acts : Tid → U → Outcome E × U) (sched : List Tid) (n : Nat) (u : U) :
    Inv (run acts sched (Sys.start n u)) :=
  run_keeps acts Inv (fun t s s2 h hs => inv_step acts t s s2 h hs) sched _ (inv_start n u)

/-! ### Locks and unlocks of each thread -/

theorem locks_append (tr : List Event) (ev : Event) (t : Tid) :
    locks (tr ++ [ev]) t = locks tr t + if ev = .lock t then 1 else 0 := by
  unfold locks
  rw [List.count_append]
  by_cases h : ev = .lock t
  · subst h; simp
  · have : (ev == Event.lock t) = false := by simpa using h
    simp [h, List.count_cons, this]

theorem unlocks_append (tr : List Event) (ev : Event) (t : Tid) :
    unlocks (tr ++ [ev]) t = unlocks tr t + if ev = .unlock t then 1 else 0 := by
  unfold unlocks
  rw [List.count_append]
  by_cases h : ev = .unlock t
  · subst h; simp
  · have : (ev == Event.unlock t) = false := by simpa using h
    simp [h, List.count_cons, this]

/-- A step of thread `t` that records nothing, or an event of `t` that is
neither a lock nor an unlock, keeps every thread in balance when `t` stays on
the same side of its guard. -/
theorem bal_set_same {flag flag2 : once_flag} {env env2 : Env U} {pcs : List (Pc E)}
    (hB : Bal ⟨flag, env, pcs⟩) (t : Tid) (pc q : Pc E) (hp : pcs[t]? = some pc)
    (hl : ∀ t2, locks env2.trace t2 = locks env.trace t2)
    (hu : ∀ t2, unlocks env2.trace t2 = unlocks env.trace t2)
    (hq : ∀ l ul, balance pc l ul → balance q l ul) :
    Bal ⟨flag2, env2, pcs.set t q⟩ := by
  intro t2 r h2
  simp only [hl, hu]
  rcases get_set_cases pcs t t2 pc q r hp h2 with ⟨rfl, rfl⟩ | ⟨_, h3⟩
  · exact hq _ _ (hB _ pc hp)
  · exact hB t2 r h3

/-- One step keeps every thread in balance with the trace. -/
theorem bal_step (acts : Tid → U → Outcome E × U) (t : Tid) (s s2 : Sys U E)
    (hB : Bal s) (h : step acts t s = some s2) : Bal s2 := by
  obtain ⟨flag, env, pcs⟩ := s
  unfold Once.step at h
  simp only at h
  split at h
  · cases h
  · next hp =>
    cases h
    refine bal_set_same hB t .entry _ hp (fun _ => rfl) (fun _ => rfl) ?_
    intro l ul hb
    split <;> simp_all [balance]
  · next hp =>
    split at h
    · cases h
    · next m env1 hc =>
      cases h
      have henv : env1 = env.log (.lock t) := by
        unfold simply_lock_guard.ctor at hc
        split at hc
        · cases hc; rfl
        · cases hc
      subst henv
      intro t2 r h2
      simp only [Env.log, locks_append, unlocks_append]
      rcases get_set_cases pcs t t2 _ _ r hp h2 with ⟨rfl, rfl⟩ | ⟨hne, h3⟩
      · have := hB _ _ hp
        simp_all [balance]
      · have := hB t2 r h3
        have hne2 : ¬ t = t2 := fun hx => hne hx.symm
        simpa [hne2] using this
  · next hp =>
    cases h
    refine bal_set_same hB t .recheck _ hp (fun _ => rfl) (fun _ => rfl) ?_
    intro l ul hb
    split <;> simp_all [balance]
  · next hp =>
    cases h
    refine bal_set_same hB t .call _ hp ?_ ?_ ?_
    · intro t2; simp [Env.log, locks_append]
    · intro t2; simp [Env.log, unlocks_append]
    · intro l ul hb; simpa [balance] using hb
  · next hp =>
    split at h
    · cases h
      refine bal_set_same hB t .in_action _ hp ?_ ?_ ?_
      · intro t2; simp [locks_append]
      · intro t2; simp [unlocks_append]
      · intro l ul hb; simpa [balance] using hb
    · cases h
      refine bal_set_same hB t .in_action _ hp ?_ ?_ ?_
      · intro t2; simp [locks_append]
      · intro t2; simp [unlocks_append]
      · intro l ul hb; simpa [balance] using hb
  · next hp =>
    cases h
    refine bal_set_same hB t .store_done _ hp ?_ ?_ ?_
    · intro t2; simp [Env.log, locks_append]
    · intro t2; simp [Env.log, unlocks_append]
    · intro l ul hb; simpa [balance] using hb
  · next r hp =>
    cases h
    intro t2 q h2
    simp only [simply_lock_guard.dtor, Env.log, locks_append, unlocks_append]
    rcases get_set_cases pcs t t2 _ _ q hp h2 with ⟨rfl, rfl⟩ | ⟨hne, h3⟩
    · have := hB _ _ hp
      simp_all [balance]
    · have := hB t2 q h3
      have hne2 : ¬ t = t2 := fun hx => hne hx.symm
      simpa [hne2] using this
  · cases h

theorem bal_start (n : Nat) (u : U) : Bal (Sys.start n u : Sys U E) := by
  intro t pc h
  simp only [Sys.start, List.getElem?_replicate] at h
  split at h
  · cases h; simp [balance, locks, unlocks, Sys.start]
  · cases h

theorem bal_run (acts : Tid → U → Outcome E × U) (sched : List Tid) (n : Nat) (u : U) :
    Bal (run acts sched (Sys.start n u)) :=
  run_keeps acts Bal (fun t s s2 h hs => bal_step acts t s s2 h hs) sched _ (bal_start n u)

/-! ### Progress -/

theorem step_length (acts : Tid → U → Outcome E × U) (t : Tid) (s s2 : Sys U E)
    (h : step acts t s = some s2) : s2.pcs.length = s.pcs.length := by
  unfold Once.step at h
  split at h <;> try split at h
  all_goals first
    | (cases h; done)
    | (cases h; simp)

theorem run_length (acts : Tid → U → Outcome E × U) (sched : List Tid) (n : Nat) (u : U) :
    (run acts sched (Sys.start n u)).pcs.length = n :=
  run_keeps acts (fun s => s.pcs.length = n)
    (fun t s s2 h hs => (step_length acts t s s2 hs).trans h) sched _
    (by simp [Sys.start])

theorem sum_set (l : List Nat) (t a b : Nat) (h : l[t]? = some a) :
    (l.set t b).sum + a = l.sum + b := by
  induction l generalizing t with
  | nil => simp at h
  | cons x l ih =>
    cases t with
    | zero =>
      simp only [List.getElem?_cons_zero, Option.some.injEq] at h
      subst h
      simp only [List.set_cons_zero, List.sum_cons]
      omega
    | succ t =>
      simp only [List.getElem?_cons_succ] at h
      have := ih t h
      simp only [List.set_cons_succ, List.sum_cons]
      omega

theorem remaining_set_lt (flag flag2 : once_flag) (env env2 : Env U) (pcs : List (Pc E))
    (t : Tid) (pc q : Pc E) (hp : pcs[t]? = some pc) (hlt : q.remaining < pc.remaining) :
    (Sys.mk flag2 env2 (pcs.set t q)).remaining < (Sys.mk flag env pcs).remaining := by
  unfold Sys.remaining
  simp only [List.map_set]
  have hm : (pcs.map Pc.remaining)[t]? = some pc.remaining := by simp [hp]
  have := sum_set (pcs.map Pc.remaining) t pc.remaining q.remaining hm
  omega

/-- Every step brings the threads closer to the end. -/
theorem step_remaining (acts : Tid → U → Outcome E × U) (t : Tid) (s s2 : Sys U E)
    (h : step acts t s = some s2) : s2.remaining < s.remaining := by
  obtain ⟨flag, env, pcs⟩ := s
  unfold Once.step at h
  simp only at h
  split at h
  · cases h
  · next hp =>
    cases h
    exact remaining_set_lt _ _ _ _ pcs t _ _ hp (by split <;> simp [Pc.remaining])
  · next hp =>
    split at h
    · cases h
    · cases h
      exact remaining_set_lt _ _ _ _ pcs t _ _ hp (by simp [Pc.remaining])
  · next hp =>
    cases h
    exact remaining_set_lt _ _ _ _ pcs t _ _ hp (by split <;> simp [Pc.remaining])
  · next hp =>
    cases h
    exact remaining_set_lt _ _ _ _ pcs t _ _ hp (by simp [Pc.remaining])
  · next hp =>
    split at h
    · cases h
      exact remaining_set_lt _ _ _ _ pcs t _ _ hp (by simp [Pc.remaining])
    · cases h
      exact remaining_set_lt _ _ _ _ pcs t _ _ hp (by simp [Pc.remaining])
  · next hp =>
    cases h
    exact remaining_set_lt _ _ _ _ pcs t _ _ hp (by simp [Pc.remaining])
  · next r hp =>
    cases h
    exact remaining_set_lt _ _ _ _ pcs t _ _ hp (by simp [Pc.remaining])
  · cases h

/-- While some thread has not left `call_once`, some thread can move. -/
theorem Inv.progress (acts : Tid → U → Outcome E × U) (s : Sys U E) (hI : Inv s)
    (hn : ¬ s.all_finished) :
    ∃ t, t < s.pcs.length ∧ (Once.step acts t s).isSome = true := by
  have hn2 : ∃ (t : Tid) (pc : Pc E), s.pcs[t]? = some pc ∧ ∀ r, pc ≠ .finished r := by
    unfold Sys.all_finished at hn
    simp only [List.all_eq_true, not_forall] at hn
    obtain ⟨pc, hmem, hpc⟩ := hn
    obtain ⟨t, ht⟩ := List.mem_iff_getElem?.1 hmem
    refine ⟨t, pc, ht, ?_⟩
    intro r hr
    subst hr
    exact hpc rfl
  obtain ⟨t, pc, hp, hnf⟩ := hn2
  by_cases hex : ∃ (t2 : Tid) (q : Pc E), s.pcs[t2]? = some q ∧ q.guarded = true
  · obtain ⟨t2, q, hq, hg⟩ := hex
    refine ⟨t2, (List.getElem?_eq_some.1 hq).1, ?_⟩
    unfold Once.step
    rw [hq]
    cases q <;> simp [Pc.guarded] at hg ⊢
    split <;> simp
  · push_neg at hex
    have hfree : s.flag.mutex_.free := by
      rcases hI.mutex with hf | ⟨t0, h0⟩
      · exact hf
      · obtain ⟨r, hr, hrg⟩ := hI.held_guarded t0 h0
        exact absurd hrg (hex t0 r hr)
    refine ⟨t, (List.getElem?_eq_some.1 hp).1, ?_⟩
    have hg := hex t pc hp
    unfold Once.step
    rw [hp]
    cases pc <;> simp [Pc.guarded] at hg ⊢
    · simp [simply_lock_guard.ctor, lock_free _ t hfree]
    · exact absurd rfl (hnf _)

theorem run_append (acts : Tid → U → Outcome E × U) (a b : List Tid) (s : Sys U E) :
    run acts (a ++ b) s = run acts b (run acts a s) := by
  simp [run, List.foldl_append]

/-- From every state an interleaving reaches, the threads can be scheduled on
until all of them have left `call_once`. -/
theorem can_finish (acts : Tid → U → Outcome E × U) (n : Nat) (u : U) (sched : List Tid) :
    ∃ more : List Tid, (run acts (sched ++ more) (Sys.start n u)).all_finished := by
  generalize hk : (run acts sched (Sys.start n u)).remaining = k
  induction k using Nat.strong_induction_on generalizing sched with
  | _ k ih =>
    by_cases hall : (run acts sched (Sys.start n u)).all_finished
    · exact ⟨[], by simpa using hall⟩
    · obtain ⟨t, _, hstep⟩ := Inv.progress acts _ (inv_run acts sched n u) hall
      obtain ⟨s2, hs2⟩ := Option.isSome_iff_exists.1 hstep
      have hlt := step_remaining acts t _ s2 hs2
      have hrun : run acts (sched ++ [t]) (Sys.start n u) = s2 := by
        rw [run_append, run_cons, run_nil, hs2]
        rfl
      obtain ⟨more, hmore⟩ := ih s2.remaining (hk ▸ hlt) (sched ++ [t]) (by rw [hrun])
      refine ⟨t :: more, ?_⟩
      simpa [List.append_assoc] using hmore

/-! ### The action runs once -/

theorem invokes_append (tr : List Event) (ev : Event) :
    invokes (tr ++ [ev]) = invokes tr + if ev.is_invoke = true then 1 else 0 := by
  unfold invokes count_events
  rw [List.countP_append]
  cases h : ev.is_invoke <;> simp [List.countP_cons, h]

theorem completions_append (tr : List Event) (ev : Event) :
    completions (tr ++ [ev]) = completions tr + if ev.is_complete = true then 1 else 0 := by
  unfold completions count_events
  rw [List.countP_append]
  cases h : ev.is_complete <;> simp [List.countP_cons, h]

theorem obligation_congr (act : U → Outcome E × U) (u0 : U) (flag flag2 : once_flag)
    (env env2 : Env U) (pc : Pc E) (hd : flag2.done_ = flag.done_)
    (hi : invokes env2.trace = invokes env.trace)
    (hc : completions env2.trace = completions env.trace) (hu : env2.user = env.user)
    (h : obligation act u0 flag env pc) : obligation act u0 flag2 env2 pc := by
  cases pc <;> simp_all [obligation]

theorem obligation_unguarded (act : U → Outcome E × U) (u0 : U) (flag flag2 : once_flag)
    (env env2 : Env U) (pc : Pc E) (hg : pc.guarded = false)
    (hd : flag.done_ = true → flag2.done_ = true)
    (h : obligation act u0 flag env pc) : obligation act u0 flag2 env2 pc := by
  cases pc <;> simp_all [obligation, Pc.guarded]

/-- A step that changes neither the done marker, nor the counts, nor the user
state, of a thread that is not at the action, keeps the invariant when the
new position of the thread is justified. -/
theorem Single.set_neutral {act : U → Outcome E × U} {u0 : U} {flag flag2 : once_flag}
    {env env2 : Env U} {pcs : List (Pc E)} (hS : Single act u0 ⟨flag, env, pcs⟩)
    (t : Tid) (pc q : Pc E) (hp : pcs[t]? = some pc) (hd : flag2.done_ = flag.done_)
    (hi : invokes env2.trace = invokes env.trace)
    (hc : completions env2.trace = completions env.trace) (hu : env2.user = env.user)
    (hpc : pc ≠ .in_action ∧ pc ≠ .store_done) (hq : obligation act u0 flag2 env2 q) :
    Single act u0 ⟨flag2, env2, pcs.set t q⟩ := by
  refine ⟨?_, ?_, ?_⟩
  · intro t2 r h2
    rcases get_set_cases pcs t t2 pc q r hp h2 with ⟨rfl, rfl⟩ | ⟨_, h3⟩
    · exact hq
    · exact obligation_congr act u0 flag flag2 env env2 r hd hi hc hu (hS.threads t2 r h3)
  · intro h
    simp only [hi, hc, hu]
    exact hS.isdone (hd ▸ h)
  · intro h hall
    simp only [hi, hc, hu]
    refine hS.idle (hd ▸ h) ?_
    intro t2 r h2
    by_cases ht : t2 = t
    · subst ht
      rw [hp] at h2; cases h2
      exact hpc
    · apply hall t2 r
      show (pcs.set t q)[t2]? = some r
      rw [List.getElem?_set_ne (fun hx => ht hx.symm)]
      exact h2

/-- A step of the thread that is within its guard: the other threads are
outside theirs, and what their positions say only depends on the marker. -/
theorem Single.set_guarded {act : U → Outcome E × U} {u0 : U} {flag flag2 : once_flag}
    {env env2 : Env U} {pcs : List (Pc E)} (hI : Inv ⟨flag, env, pcs⟩)
    (hS : Single act u0 ⟨flag, env, pcs⟩)
    (t : Tid) (pc q : Pc E) (hp : pcs[t]? = some pc) (hg : pc.guarded = true)
    (hd : flag.done_ = true → flag2.done_ = true)
    (hq : obligation act u0 flag2 env2 q)
    (hdone : flag2.done_ = true →
      invokes env2.trace = 1 ∧ completions env2.trace = 1 ∧ env2.user = (act u0).2)
    (hidle : flag2.done_ = false → (q ≠ .in_action ∧ q ≠ .store_done) →
      invokes env2.trace = 0 ∧ completions env2.trace = 0 ∧ env2.user = u0) :
    Single act u0 ⟨flag2, env2, pcs.set t q⟩ := by
  refine ⟨?_, hdone, ?_⟩
  · intro t2 r h2
    rcases get_set_cases pcs t t2 pc q r hp h2 with ⟨rfl, rfl⟩ | ⟨hne, h3⟩
    · exact hq
    · have hr : r.guarded = false := by
        cases hrg : r.guarded with
        | false => rfl
        | true => exact absurd (Inv.exclusive hI t2 t r pc h3 hrg hp hg) hne
      exact obligation_unguarded act u0 flag flag2 env env2 r hr hd (hS.threads t2 r h3)
  · intro h hall
    exact hidle h (hall t q (get_set_self pcs t pc q hp))

/-- No thread is at the action when a thread within its guard is elsewhere. -/
theorem Inv.none_at_action {flag : once_flag} {env : Env U} {pcs : List (Pc E)}
    (hI : Inv ⟨flag, env, pcs⟩) (t : Tid) (pc : Pc E) (hp : pcs[t]? = some pc)
    (hg : pc.guarded = true) (hpc : pc ≠ .in_action ∧ pc ≠ .store_done) :
    ∀ (t2 : Tid) (r : Pc E), pcs[t2]? = some r → r ≠ .in_action ∧ r ≠ .store_done := by
  intro t2 r h2
  by_cases ht : t2 = t
  · subst ht
    rw [hp] at h2; cases h2
    exact hpc
  · have hr : r.guarded = false := by
      cases hrg : r.guarded with
      | false => rfl
      | true => exact absurd (Inv.exclusive hI t2 t r pc h2 hrg hp hg) ht
    constructor <;> (intro hx; subst hx; simp [Pc.guarded] at hr)

/-- One step keeps the invariant of the single execution. -/
theorem single_step (act : U → Outcome E × U) (hact : ∀ u, (act u).1 = .returned) (u0 : U)
    (t : Tid) (s s2 : Sys U E) (hI : Inv s) (hS : Single act u0 s)
    (h : Once.step (fun _ => act) t s = some s2) : Single act u0 s2 := by
  obtain ⟨flag, env, pcs⟩ := s
  unfold Once.step at h
  simp only at h
  split at h
  · cases h
  · next hp =>
    cases h
    refine Single.set_neutral hS t .entry _ hp rfl rfl rfl rfl (by simp) ?_
    split
    · next hd => exact ⟨rfl, hd⟩
    · trivial
  · next hp =>
    split at h
    · cases h
    · next m env1 hc =>
      cases h
      obtain ⟨_, _, henv⟩ := Inv.ctor_free hI t hp m env1 hc
      subst henv
      refine Single.set_neutral hS t .guard_ctor _ hp rfl ?_ ?_ rfl (by simp) trivial
      · simp [Env.log, invokes_append, Event.is_invoke]
      · simp [Env.log, completions_append, Event.is_complete]
  · next hp =>
    cases h
    refine Single.set_neutral hS t .recheck _ hp rfl rfl rfl rfl (by simp) ?_
    split
    · next hd => exact ⟨rfl, hd⟩
    · next hd => simpa [obligation] using hd
  · next hp =>
    cases h
    have hd : flag.done_ = false := hS.threads t _ hp
    obtain ⟨h1, h2, h3⟩ := hS.idle hd (Inv.none_at_action hI t _ hp rfl (by simp))
    simp only at h1 h2 h3
    refine Single.set_guarded hI hS t .call _ hp rfl (fun hx => hx) ?_ ?_ ?_
    · refine ⟨hd, ?_, ?_, h3⟩
      · simp [Env.log, invokes_append, Event.is_invoke, h1]
      · simp [Env.log, completions_append, Event.is_complete, h2]
    · intro hx; simp [hd] at hx
    · intro _ hx; simp at hx
  · next hp =>
    obtain ⟨hd, h1, h2, h3⟩ := hS.threads t _ hp
    simp only at hd h1 h2 h3
    split at h
    · next u hu =>
      cases h
      have hu2 : u = (act u0).2 := by
        have hu3 : act env.user = (Outcome.returned, u) := hu
        rw [h3] at hu3; rw [hu3]
      refine Single.set_guarded hI hS t .in_action _ hp rfl (fun hx => hx) ?_ ?_ ?_
      · refine ⟨hd, ?_, ?_, hu2⟩
        · simp [invokes_append, Event.is_invoke, h1]
        · simp [completions_append, Event.is_complete, h2]
      · intro hx; simp [hd] at hx
      · intro _ hx; simp at hx
    · next e u hu =>
      have := hact env.user
      have hu3 : act env.user = (Outcome.raised e, u) := hu
      rw [hu3] at this
      cases this
  · next hp =>
    cases h
    obtain ⟨hd, h1, h2, h3⟩ := hS.threads t _ hp
    simp only at hd h1 h2 h3
    refine @Single.set_guarded U E _ _ flag ⟨flag.mutex_, true⟩ _ _ _ hI hS t .store_done _ hp rfl
      (fun _ => rfl) ⟨rfl, rfl⟩ ?_ ?_
    · intro _
      refine ⟨?_, ?_, h3⟩
      · simp [Env.log, invokes_append, Event.is_invoke, h1]
      · simp [Env.log, completions_append, Event.is_complete, h2]
    · intro hx; simp at hx
  · next r hp =>
    cases h
    have hob := hS.threads t _ hp
    refine Single.set_neutral hS t (.guard_dtor r) _ hp rfl ?_ ?_ rfl (by simp) hob
    · simp [simply_lock_guard.dtor, Env.log, invokes_append, Event.is_invoke]
    · simp [simply_lock_guard.dtor, Env.log, completions_append, Event.is_complete]
  · cases h

theorem single_start (act : U → Outcome E × U) (n : Nat) (u0 : U) :
    Single act u0 (Sys.start n u0 : Sys U E) := by
  refine ⟨?_, ?_, ?_⟩
  · intro t pc h
    simp only [Sys.start, List.getElem?_replicate] at h
    split at h
    · cases h; trivial
    · cases h
  · intro h
    simp [Sys.start, once_flag.ctor] at h
  · intro _ _
    simp [Sys.start, invokes, completions, count_events]

theorem single_run (act : U → Outcome E × U) (hact : ∀ u, (act u).1 = .returned)
    (sched : List Tid) (n : Nat) (u0 : U) :
    Inv (run (fun _ => act) sched (Sys.start n u0)) ∧
    Single act u0 (run (fun _ => act) sched (Sys.start n u0)) :=
  run_keeps (fun _ => act) (fun s => Inv s ∧ Single act u0 s)
    (fun t s s2 h hs =>
      ⟨inv_step _ t s s2 h.1 hs, single_step act hact u0 t s s2 h.1 h.2 hs⟩)
    sched _ ⟨inv_start n u0, single_start act n u0⟩

/-- The counts never exceed one. -/
theorem Single.at_most_once {act : U → Outcome E × U} {u0 : U} {s : Sys U E}
    (hS : Single act u0 s) :
    invokes s.env.trace ≤ 1 ∧ completions s.env.trace ≤ 1 := by
  cases hd : s.flag.done_ with
  | true =>
    obtain ⟨h1, h2, _⟩ := hS.isdone hd
    omega
  | false =>
    by_cases hex : ∀ (t : Tid) (pc : Pc E), s.pcs[t]? = some pc →
        pc ≠ .in_action ∧ pc ≠ .store_done
    · obtain ⟨h1, h2, _⟩ := hS.idle hd hex
      omega
    · push_neg at hex
      obtain ⟨t, pc, hp, hpc⟩ := hex
      have hob := hS.threads t pc hp
      by_cases h1 : pc = .in_action
      · subst h1
        obtain ⟨_, h1, h2, _⟩ := hob
        omega
      · have h2 := hpc h1
        subst h2
        obtain ⟨_, h1, h2, _⟩ := hob
        omega

/-! ### A thread running alone makes one big step -/

/-- Seven turns of a thread at the entry, with no other thread moving, do what
`call_once` does: the same flag, user state and trace result, and the thread
ends where `call_once` ends: returned, raised, or waiting for the mutex. -/
theorem solo_run {A : Type} (acts : Tid → U → Outcome E × U) (t : Tid) (f : Callable U E A)
    (args : A) (hacts : acts t = call f args) (flag : once_flag) (env : Env U)
    (pcs : List (Pc E)) (hp : pcs[t]? = some .entry) :
    run acts (List.replicate 7 t) ⟨flag, env, pcs⟩ =
      match call_once t flag f args env with
      | .returned (fl, env2) => ⟨fl, env2, pcs.set t (.finished .returned)⟩
      | .raised e (fl, env2) => ⟨fl, env2, pcs.set t (.finished (.raised e))⟩
      | .blocked => ⟨flag, env, pcs.set t .guard_ctor⟩ := by
  have hlt : t < pcs.length := (List.getElem?_eq_some.1 hp).1
  obtain ⟨mu, d⟩ := flag
  cases d with
  | true =>
    simp [call_once, List.replicate, run_cons, run_nil, Once.step, hp, hlt]
  | false =>
    cases hc : simply_lock_guard.ctor t mu env with
    | none =>
      simp [call_once, List.replicate, run_cons, run_nil, Once.step, hp, hlt, hc]
    | some r =>
      obtain ⟨m1, env1⟩ := r
      cases ha : call f args env1.user with
      | mk o u1 =>
        have henv1 : env1 = env.log (.lock t) := by
          unfold simply_lock_guard.ctor at hc
          split at hc
          · cases hc; rfl
          · cases hc
        have ha2 : call f args env.user = (o, u1) := by
          rw [henv1] at ha; exact ha
        cases o with
        | returned =>
          simp [call_once, List.replicate, run_cons, run_nil, Once.step, hp, hlt, hc, hacts,
            run_action, ha, ha2, henv1, Env.log, simply_lock_guard.dtor]
        | raised e =>
          simp [call_once, List.replicate, run_cons, run_nil, Once.step, hp, hlt, hc, hacts,
            run_action, ha, ha2, henv1, Env.log, simply_lock_guard.dtor]

/-! ### The operations of each thread, in order -/

theorem events_of_append (t : Tid) (tr new : List Event) :
    events_of t (tr ++ new) = events_of t tr ++ events_of t new := by
  simp [events_of]

/-- A step of thread `t` that appends the operations `new`, all its own, keeps
every thread in line with the trace when the new place of `t` stands for its
old operations followed by `new`. -/
theorem seq_set {flag flag2 : once_flag} {env env2 : Env U} {pcs : List (Pc E)}
    (hQ : Seq ⟨flag, env, pcs⟩) (t : Tid) (pc q : Pc E) (hp : pcs[t]? = some pc)
    (new : List Event) (htr : env2.trace = env.trace ++ new)
    (hnew : ∀ ev ∈ new, ev.tid = t)
    (hq : ∀ evs, effects t pc evs → effects t q (evs ++ new)) :
    Seq ⟨flag2, env2, pcs.set t q⟩ := by
  intro t2 r h2
  simp only [htr, events_of_append]
  rcases get_set_cases pcs t t2 pc q r hp h2 with ⟨rfl, rfl⟩ | ⟨hne, h3⟩
  · have hall : events_of t2 new = new := by
      unfold events_of
      rw [List.filter_eq_self]
      intro ev hev
      simp [hnew ev hev]
    rw [hall]
    exact hq _ (hQ _ pc hp)
  · have hnone : events_of t2 new = [] := by
      unfold events_of
      rw [List.filter_eq_nil_iff]
      intro ev hev
      simp [hnew ev hev]
      exact fun hx => hne hx.symm
    rw [hnone, List.append_nil]
    exact hQ t2 r h3

/-- One step keeps every thread in line with the trace. -/
theorem seq_step (acts : Tid → U → Outcome E × U) (t : Tid) (s s2 : Sys U E)
    (hQ : Seq s) (h : Once.step acts t s = some s2) : Seq s2 := by
  obtain ⟨flag, env, pcs⟩ := s
  unfold Once.step at h
  simp only at h
  split at h
  · cases h
  · next hp =>
    cases h
    refine seq_set hQ t .entry _ hp [] (by simp) (by simp) ?_
    intro evs hev
    split <;> simp_all [effects]
  · next hp =>
    split at h
    · cases h
    · next m env1 hc =>
      cases h
      have henv : env1 = env.log (.lock t) := by
        unfold simply_lock_guard.ctor at hc
        split at hc
        · cases hc; rfl
        · cases hc
      subst henv
      refine seq_set hQ t .guard_ctor _ hp [.lock t] rfl (by simp [Event.tid]) ?_
      intro evs hev
      simp_all [effects]
  · next hp =>
    cases h
    refine seq_set hQ t .recheck _ hp [] (by simp) (by simp) ?_
    intro evs hev
    split <;> simp_all [effects]
  · next hp =>
    cases h
    refine seq_set hQ t .call _ hp [.invoke t] rfl (by simp [Event.tid]) ?_
    intro evs hev
    simp_all [effects]
  · next hp =>
    split at h
    · cases h
      refine seq_set hQ t .in_action _ hp [.complete t] rfl (by simp [Event.tid]) ?_
      intro evs hev
      simp_all [effects]
    · cases h
      refine seq_set hQ t .in_action _ hp [.raise t] rfl (by simp [Event.tid]) ?_
      intro evs hev
      simp_all [effects]
  · next hp =>
    cases h
    refine seq_set hQ t .store_done _ hp [.store_done t] rfl (by simp [Event.tid]) ?_
    intro evs hev
    simp_all [effects]
  · next r hp =>
    cases h
    refine seq_set hQ t (.guard_dtor r) _ hp [.unlock t] rfl (by simp [Event.tid]) ?_
    intro evs hev
    cases r with
    | returned =>
      rcases hev with hev | hev <;> subst hev <;> simp [effects]
    | raised e =>
      simp_all [effects]
  · cases h

theorem seq_run (acts : Tid → U → Outcome E × U) (sched : List Tid) (n : Nat) (u : U) :
    Seq (run acts sched (Sys.start n u)) := by
  refine run_keeps acts Seq (fun t s s2 h hs => seq_step acts t s s2 h hs) sched _ ?_
  intro t pc h
  simp only [Sys.start, List.getElem?_replicate] at h
  split at h
  · cases h; simp [effects, events_of, Sys.start]
  · cases h

/-! ### The marker is set after the action -/

theorem returned_step (acts : Tid → U → Outcome E × U) (t : Tid) (s s2 : Sys U E)
    (hI : Inv s) (hR : Returned s) (h : Once.step acts t s = some s2) : Returned s2 := by
  obtain ⟨flag, env, pcs⟩ := s
  have key : ∀ (q : Pc E) (pc : Pc E) (env2 : Env U) (flag2 : once_flag),
      pcs[t]? = some pc → (∀ ev, ev ∈ env.trace → ev ∈ env2.trace) →
      (q = .store_done → Event.complete t ∈ env2.trace) →
      Returned ⟨flag2, env2, pcs.set t q⟩ := by
    intro q pc env2 flag2 hp hsub hq t2 h2
    rcases get_set_cases pcs t t2 pc q _ hp h2 with ⟨rfl, hx⟩ | ⟨_, h3⟩
    · exact hq hx.symm
    · exact hsub _ (hR t2 h3)
  unfold Once.step at h
  simp only at h
  split at h
  · cases h
  · next hp =>
    cases h
    exact key _ _ _ _ hp (fun _ hx => hx) (by split <;> simp)
  · next hp =>
    split at h
    · cases h
    · next m env1 hc =>
      cases h
      obtain ⟨_, _, henv⟩ := Inv.ctor_free hI t hp m env1 hc
      subst henv
      exact key _ _ _ _ hp (fun _ hx => by simp [Env.log, hx]) (by simp)
  · next hp =>
    cases h
    exact key _ _ _ _ hp (fun _ hx => hx) (by split <;> simp)
  · next hp =>
    cases h
    exact key _ _ _ _ hp (fun _ hx => by simp [Env.log, hx]) (by simp)
  · next hp =>
    split at h
    · cases h
      exact key _ _ _ _ hp (fun _ hx => by simp [hx]) (by simp)
    · cases h
      exact key _ _ _ _ hp (fun _ hx => by simp [hx]) (by simp)
  · next hp =>
    cases h
    exact key _ _ _ _ hp (fun _ hx => by simp [Env.log, hx]) (by simp)
  · next r hp =>
    cases h
    exact key _ _ _ _ hp (fun _ hx => by simp [simply_lock_guard.dtor, Env.log, hx]) (by simp)
  · cases h

theorem returned_run (acts : Tid → U → Outcome E × U) (sched : List Tid) (n : Nat) (u : U) :
    Returned (run acts sched (Sys.start n u)) := by
  have := run_keeps acts (fun s => Inv s ∧ Returned s)
    (fun t s s2 h hs => ⟨inv_step _ t s s2 h.1 hs, returned_step acts t s s2 h.1 h.2 hs⟩)
    sched (Sys.start n u) ⟨inv_start n u, ?_⟩
  · exact this.2
  · intro t h
    simp only [Sys.start, List.getElem?_replicate] at h
    split at h <;> cases h

/-- Only the step at line 100 changes the marker, and it sets it. -/
theorem step_done (acts : Tid → U → Outcome E × U) (t : Tid) (s s2 : Sys U E)
    (h : Once.step acts t s = some s2) (hne : s2.flag.done_ ≠ s.flag.done_) :
    s.pcs[t]? = some .store_done ∧ s2.flag.done_ = true ∧
      s2.flag.mutex_ = s.flag.mutex_ := by
  unfold Once.step at h
  split at h <;> try split at h
  all_goals first
    | (cases h; done)
    | (cases h; exact absurd rfl hne)
    | (rename_i hp; cases h; exact ⟨hp, rfl, rfl⟩)

end SmallStep

/-! ## The claims -/

section Claims

variable {U E A : Type}

/-- C5: a `call_once` entered with the done marker true returns at once, with
the flag (mutex and done marker) and the trace exactly as they were, so no
lock or unlock was performed; in an interleaved execution the thread goes
from the entry straight to its return, whatever the state of the mutex. -/
theorem call_once_fast_path (t : Tid) (flag : once_flag) (f : Callable U E A) (args : A)
    (env : Env U) (h : flag.done_ = true) :
    call_once t flag f args env = .returned (flag, env) ∧
    ∀ (acts : Tid → U → Outcome E × U) (pcs : List (Pc E)), pcs[t]? = some .entry →
      step acts t ⟨flag, env, pcs⟩ = some ⟨flag, env, pcs.set t (.finished .returned)⟩ := by
  refine ⟨call_once_done t flag f args env h, ?_⟩
  intro acts pcs hp
  simp [step, hp, h]

/-- Witness of C5: a done flag whose mutex another thread holds. -/
theorem call_once_fast_path_witness :
    call_once (E := Unit) 0 ⟨⟨⟨some 7, 1⟩⟩, true⟩
        (.function (fun (_ : Unit) (u : Nat) => (.returned, u + 1))) () ⟨0, []⟩
      = .returned (⟨⟨⟨some 7, 1⟩⟩, true⟩, ⟨0, []⟩) :=
  (call_once_fast_path 0 ⟨⟨⟨some 7, 1⟩⟩, true⟩ _ () ⟨0, []⟩ rfl).1

/-- C2: once a `call_once` on the flag has returned, the done marker is true,
and every later `call_once` on it, whatever its callable and arguments,
returns with the flag, the user state and the trace unchanged: no action is
invoked and the marker stays true. -/
theorem call_once_after_success (t : Tid) (flag : once_flag) (f : Callable U E A) (args : A)
    (env : Env U) (flag1 : once_flag) (env1 : Env U)
    (h : call_once t flag f args env = .returned (flag1, env1)) :
    flag1.done_ = true ∧
    ∀ cs : List (Invocation U E),
      outcomes cs (flag1, env1) = List.replicate cs.length (.returned (flag1, env1)) := by
  have hd : flag1.done_ = true := call_once_returned_done t flag f args env _ h
  exact ⟨hd, fun cs => outcomes_done cs (flag1, env1) hd⟩

/-- Witness of C2: a first call that increments a counter on a new flag. -/
theorem call_once_after_success_witness :
    (⟨SystemMutex.ctor, true⟩ : once_flag).done_ = true ∧
    ∀ cs : List (Invocation Nat Unit),
      outcomes cs (⟨SystemMutex.ctor, true⟩,
          ⟨1, [.lock 0, .invoke 0, .complete 0, .store_done 0, .unlock 0]⟩) =
        List.replicate cs.length (.returned (⟨SystemMutex.ctor, true⟩,
          ⟨1, [.lock 0, .invoke 0, .complete 0, .store_done 0, .unlock 0]⟩)) :=
  call_once_after_success 0 once_flag.ctor
    (.function (fun (_ : Unit) (u : Nat) => (.returned, u + 1))) () ⟨0, []⟩ _ _ (by rfl)

/-- C3: on a flag that is not done (its mutex free), a `call_once` whose
action raises `e` raises that same `e`, leaves the flag as it was (done still
false, mutex free again) and keeps what the action did to the user state; a
following `call_once` on the flag with an action that returns invokes that
action, returns and sets the marker. -/
theorem call_once_error_then_retry (t : Tid) (flag : once_flag) (f : Callable U E A)
    (args : A) (env : Env U) (e : E) (u1 : U)
    (hd : flag.done_ = false) (hm : flag.mutex_.free)
    (hf : call f args env.user = (.raised e, u1)) :
    call_once t flag f args env =
      .raised e (flag, ⟨u1, env.trace ++ [.lock t, .invoke t, .raise t, .unlock t]⟩) ∧
    ∀ (B : Type) (t2 : Tid) (g : Callable U E B) (args2 : B) (u2 : U),
      call g args2 u1 = (.returned, u2) →
      call_once t2 flag g args2 ⟨u1, env.trace ++ [.lock t, .invoke t, .raise t, .unlock t]⟩ =
        .returned (⟨flag.mutex_, true⟩,
          ⟨u2, env.trace ++ [.lock t, .invoke t, .raise t, .unlock t] ++
            [.lock t2, .invoke t2, .complete t2, .store_done t2, .unlock t2]⟩) := by
  refine ⟨call_once_raises t flag f args env e u1 hd hm hf, ?_⟩
  intro B t2 g args2 u2 hg
  exact call_once_returns t2 flag g args2 _ u2 hd hm hg

/-- Witness of C3: an action that raises after incrementing a counter. -/
theorem call_once_error_then_retry_witness :
    call_once 0 once_flag.ctor
        (.function (fun (_ : Unit) (u : Nat) => (.raised "boom", u + 1))) () ⟨0, []⟩ =
      .raised "boom" (once_flag.ctor, ⟨1, [] ++ [.lock 0, .invoke 0, .raise 0, .unlock 0]⟩) :=
  (call_once_error_then_retry 0 once_flag.ctor
    (.function (fun (_ : Unit) (u : Nat) => (.raised "boom", u + 1))) () ⟨0, []⟩ "boom" 1
    (by rfl) (by rfl) (by rfl)).1

/-- C7, where the code departs from it: called through `call` with the
receiver `"abc"` and the further argument `5`, a member that takes its first
parameter by value is dispatched to `call_member` and its body runs on the
object already moved from: it sees `("", "abc", 5)`, and not the
`("abc", "abc", 5)` of `(r.*f)(r, rest...)`. -/
theorem call_member_runs_on_moved_from_receiver :
    is_member_pointer record_by_value = true ∧
    call record_by_value ("abc", 5) none = (.returned, some ("", "abc", 5)) ∧
    record "abc" ("abc", 5) none = (.returned, some ("abc", "abc", 5)) ∧
    call record_by_value ("abc", 5) none ≠ record "abc" ("abc", 5) none := by
  refine ⟨rfl, rfl, rfl, ?_⟩
  intro h
  have h2 : (some ("", "abc", 5) : Option (String × String × Nat)) =
      some ("abc", "abc", 5) := congrArg Prod.snd h
  simp at h2

/-- C8: `try_lock` always returns, and it reports success exactly when the
zero-wait lock call of the kernel reports `0`, leaving the mutex as that call
left it. On a free mutex it succeeds and the caller holds the mutex; on a
mutex held by another thread it fails and the mutex is unchanged. -/
theorem try_lock_spec (m : SystemMutex) (t : Tid) :
    (∃ r k, k_mutex_lock m._mutex t .K_NO_WAIT = some (r, k) ∧
      m.try_lock t = some (decide (r = 0), ⟨k⟩)) ∧
    (m.free → m.try_lock t = some (true, ⟨⟨some t, 1⟩⟩)) ∧
    (∀ o n, o ≠ t → m._mutex = ⟨some o, n + 1⟩ → m.try_lock t = some (false, m)) := by
  refine ⟨?_, ?_, ?_⟩
  · unfold SystemMutex.try_lock k_mutex_lock
    split <;> simp
  · intro h
    unfold SystemMutex.free at h
    simp [SystemMutex.try_lock, k_mutex_lock, h]
  · intro o n hne h
    have hne2 : ¬ (some o : Option Tid) = some t := by simpa using hne
    cases m with
    | mk k =>
      simp only at h
      subst h
      simp [SystemMutex.try_lock, k_mutex_lock, hne, EBUSY]

/-- Witness of C8: thread 2 tries a mutex that thread 1 holds. -/
theorem try_lock_spec_witness :
    (SystemMutex.mk ⟨some 1, 1⟩).try_lock 2 = some (false, ⟨⟨some 1, 1⟩⟩) :=
  (try_lock_spec ⟨⟨some 1, 1⟩⟩ 2).2.2 1 0 (by decide) rfl

/-- C4: along any sequence of `call_once` invocations on a newly constructed
flag, with actions that return or raise, every invocation ends, the done
markers met form a run of `false` followed by a run of `true` (never true to
false, false to true at most once), and in every state met the marker is
true exactly when some guarded action has run to completion. -/
theorem done_marker_history (cs : List (Invocation U E)) (u : U) :
    (history cs (once_flag.ctor, ⟨u, []⟩)).length = cs.length + 1 ∧
    (∃ a b, (history cs (once_flag.ctor, ⟨u, []⟩)).map (fun x => x.1.done_) =
      List.replicate a false ++ List.replicate b true) ∧
    ∀ x ∈ history cs (once_flag.ctor, ⟨u, []⟩),
      (x.1.done_ = true ↔ completed x.2.trace) := by
  obtain ⟨hlen, hall, hab⟩ := history_settled cs _ (settled_start u)
  exact ⟨hlen, hab, fun x hx => (hall x hx).2⟩

/-- C9, against the claim: on an object whose earlier `Init` raised, a later
`Init` does execute its function (the counter goes from 0 to 1). -/
theorem Init_after_raising_Init_executes :
    GoogleOnceDynamic.ctor.Init 0 (fun (_ : Unit) (u : Nat) => (Outcome.raised (), u)) ()
        ⟨0, []⟩ =
      .raised () (GoogleOnceDynamic.ctor,
        ⟨0, [.lock 0, .invoke 0, .raise 0, .unlock 0]⟩) ∧
    GoogleOnceDynamic.ctor.Init (E := Unit) 0
        (fun (_ : Unit) (u : Nat) => (Outcome.returned, u + 1)) ()
        ⟨0, [.lock 0, .invoke 0, .raise 0, .unlock 0]⟩ =
      .returned (⟨⟨SystemMutex.ctor, true⟩⟩,
        ⟨1, [.lock 0, .invoke 0, .raise 0, .unlock 0,
             .lock 0, .invoke 0, .complete 0, .store_done 0, .unlock 0]⟩) :=
  ⟨by rfl, by rfl⟩

/-- C9, amended: each wrapper is `call_once` on the wrapped flag, and after any
sequence of invocations on the flag of a new object, `Init` returns without
executing its function when one of them has run its action to completion, and
otherwise executes `(*f)(arg)` once and returns (marker set) when the function
returns, or raises its error (marker left false) when it raises. -/
theorem wrappers_are_call_once :
    (∀ (t : Tid) (once : ProtobufOnceType) (init_func : U → Outcome E × U) (env : Env U),
      GoogleOnceInit t once init_func env =
        call_once t once (.function (fun (_ : Unit) => init_func)) () env) ∧
    (∀ (Arg : Type) (t : Tid) (once : ProtobufOnceType) (init_func : Arg → U → Outcome E × U)
        (arg : Arg) (env : Env U),
      GoogleOnceInitArg t once init_func arg env =
        call_once t once (.function init_func) arg env) ∧
    (∀ (T : Type) (self : GoogleOnceDynamic) (t : Tid) (f : T → U → Outcome E × U) (arg : T)
        (env : Env U),
      self.Init t f arg env =
        (call_once t self.state_ (.function f) arg env).map
          (fun r => (GoogleOnceDynamic.mk r.1, r.2))) ∧
    (∀ (T : Type) (cs : List (Invocation U E)) (u : U) (s : once_flag × Env U)
        (t : Tid) (f : T → U → Outcome E × U) (arg : T),
      s ∈ history cs (GoogleOnceDynamic.ctor.state_, ⟨u, []⟩) →
      (completed s.2.trace →
        (GoogleOnceDynamic.mk s.1).Init t f arg s.2 = .returned (⟨s.1⟩, s.2)) ∧
      (¬ completed s.2.trace →
        (GoogleOnceDynamic.mk s.1).Init t f arg s.2 =
          match f arg s.2.user with
          | (.returned, u1) =>
            .returned (⟨⟨s.1.mutex_, true⟩⟩, ⟨u1, s.2.trace ++
              [.lock t, .invoke t, .complete t, .store_done t, .unlock t]⟩)
          | (.raised e, u1) =>
            .raised e (⟨s.1⟩, ⟨u1, s.2.trace ++
              [.lock t, .invoke t, .raise t, .unlock t]⟩))) := by
  refine ⟨fun _ _ _ _ => rfl, fun _ _ _ _ _ _ => rfl, fun _ _ _ _ _ _ => rfl, ?_⟩
  intro T cs u s t f arg hs
  obtain ⟨_, hall, _⟩ := history_settled cs _ (settled_start u)
  obtain ⟨hm, hc⟩ := hall s hs
  constructor
  · intro hx
    have hd := hc.2 hx
    simp [GoogleOnceDynamic.Init, GoogleOnceInitArg, call_once_done _ _ _ _ _ hd, Exec.map]
  · intro hx
    have hd : s.1.done_ = false := by
      cases hd : s.1.done_ with
      | false => rfl
      | true => exact absurd (hc.1 hd) hx
    cases hf : f arg s.2.user with
    | mk o u1 =>
      have hcall : call (Callable.function f) arg s.2.user = (o, u1) := hf
      cases o with
      | returned =>
        simp [GoogleOnceDynamic.Init, GoogleOnceInitArg,
          call_once_returns t s.1 _ arg s.2 u1 hd hm hcall, Exec.map]
      | raised e =>
        simp [GoogleOnceDynamic.Init, GoogleOnceInitArg,
          call_once_raises t s.1 _ arg s.2 e u1 hd hm hcall, Exec.map]

/-- Witness of C9: the state after one raising invocation on a new object. -/
theorem wrappers_are_call_once_witness :
    (GoogleOnceDynamic.mk once_flag.ctor).Init (E := Unit) 0
        (fun (_ : Unit) (u : Nat) => (Outcome.returned, u + 1)) ()
        ⟨0, [.lock 0, .invoke 0, .raise 0, .unlock 0]⟩ =
      match (Outcome.returned (E := Unit), 0 + 1) with
      | (.returned, u1) =>
        .returned (⟨⟨SystemMutex.ctor, true⟩⟩, ⟨u1, [.lock 0, .invoke 0, .raise 0, .unlock 0] ++
          [.lock 0, .invoke 0, .complete 0, .store_done 0, .unlock 0]⟩)
      | (.raised e, u1) =>
        .raised e (⟨once_flag.ctor⟩, ⟨u1, [.lock 0, .invoke 0, .raise 0, .unlock 0] ++
          [.lock 0, .invoke 0, .raise 0, .unlock 0]⟩) :=
  (wrappers_are_call_once.2.2.2 Unit
    [⟨0, Unit, .function (fun (_ : Unit) (u : Nat) => (Outcome.raised (), u)), ()⟩] 0
    (once_flag.ctor, ⟨0, [.lock 0, .invoke 0, .raise 0, .unlock 0]⟩) 0
    (fun (_ : Unit) (u : Nat) => (Outcome.returned, u + 1)) ()
    (List.Mem.tail _ (List.Mem.head _))).2
    (by decide)

/-- C1: `n ≥ 1` threads race on a new flag with the same action, which does
not raise. In every state `s` that an interleaving of their steps reaches: the
action has been entered at most once and has returned at most once; a thread
that has left `call_once` has returned, the marker is set, and the action
has been entered once, has returned once and has had its effect once; when
all threads have left, the action has run exactly once; while a thread has
not left, some thread can move, every move brings the end closer, and the
schedule can be continued until all threads have left: the race ends. -/
theorem call_once_exactly_once (n : Nat) (hn : 1 ≤ n) (f : Callable U E A) (args : A)
    (hf : ∀ u, (call f args u).1 = .returned) (u0 : U) (sched : List Tid) (s : Sys U E)
    (hs : s = run (fun _ => call f args) sched (Sys.start n u0)) :
    s.pcs.length = n ∧
    invokes s.env.trace ≤ 1 ∧ completions s.env.trace ≤ 1 ∧
    (∀ (t : Tid) (r : Outcome E), s.pcs[t]? = some (.finished r) →
      r = .returned ∧ s.flag.done_ = true ∧ invokes s.env.trace = 1 ∧
      completions s.env.trace = 1 ∧ s.env.user = (call f args u0).2) ∧
    (s.all_finished →
      invokes s.env.trace = 1 ∧ completions s.env.trace = 1 ∧
      s.env.user = (call f args u0).2) ∧
    (¬ s.all_finished → ∃ t, t < n ∧ (step (fun _ => call f args) t s).isSome = true) ∧
    (∀ (t : Tid) (s2 : Sys U E), step (fun _ => call f args) t s = some s2 →
      s2.remaining < s.remaining) ∧
    (∃ more : List Tid,
      (run (fun _ => call f args) (sched ++ more) (Sys.start n u0)).all_finished) := by
  subst hs
  obtain ⟨hI, hS⟩ := single_run (call f args) hf sched n u0
  have hlen := run_length (fun _ => call f args) sched n u0
  have hfin : ∀ (t : Tid) (r : Outcome E),
      (run (fun _ => call f args) sched (Sys.start n u0)).pcs[t]? = some (.finished r) →
      r = .returned ∧ (run (fun _ => call f args) sched (Sys.start n u0)).flag.done_ = true ∧
      invokes (run (fun _ => call f args) sched (Sys.start n u0)).env.trace = 1 ∧
      completions (run (fun _ => call f args) sched (Sys.start n u0)).env.trace = 1 ∧
      (run (fun _ => call f args) sched (Sys.start n u0)).env.user = (call f args u0).2 := by
    intro t r hp
    obtain ⟨hr, hd⟩ := hS.threads t _ hp
    exact ⟨hr, hd, hS.isdone hd⟩
  refine ⟨hlen, hS.at_most_once.1, hS.at_most_once.2, hfin, ?_, ?_, ?_,
    can_finish _ n u0 sched⟩
  · intro hall
    have h0 : 0 < (run (fun _ => call f args) sched (Sys.start n u0)).pcs.length := by
      rw [hlen]; exact hn
    have hmem := List.getElem_mem h0
    unfold Sys.all_finished at hall
    have hq := List.all_eq_true.1 hall _ hmem
    cases hpc : (run (fun _ => call f args) sched (Sys.start n u0)).pcs[0] with
    | finished r =>
      have := hfin 0 r (by rw [List.getElem?_eq_getElem h0, hpc])
      exact this.2.2
    | _ => simp [hpc, Pc.is_finished] at hq
  · intro hnot
    obtain ⟨t, ht, hstep⟩ := Inv.progress (fun _ => call f args) _ hI hnot
    exact ⟨t, hlen ▸ ht, hstep⟩
  · intro t s2 h
    exact step_remaining _ t _ s2 h

/-- Witness of C1: the race of three threads ends with every thread out of
`call_once` and the counter incremented once. -/
theorem call_once_exactly_once_witness :
    race3.all_finished ∧ invokes race3.env.trace = 1 ∧ completions race3.env.trace = 1 ∧
      race3.env.user = 1 :=
  ⟨by decide,
    (call_once_exactly_once 3 (by decide) increment () (fun _ => by rfl) 0
      [0, 1, 2, 2, 2, 2, 2, 2, 2, 1, 1, 1, 0, 0, 0] race3 rfl).2.2.2.2.1 (by decide)⟩

/-- C6: a guard built in standard mode on a free mutex locks it, and its
destructor unlocks it, once each. A `call_once` that takes the slow path
(marker false, mutex free) ends, by return or by raising, with one more lock
and one more unlock of the caller in the trace and with the mutex free. In
every interleaved execution each thread has locked at most once and unlocked
no more than it locked; within the scope of its guard it has locked once, not
unlocked, and holds the mutex; once it has left `call_once`, by whichever
path, it has unlocked as often as it locked and does not hold the mutex. -/
theorem guard_locks_and_unlocks_once :
    (∀ (t : Tid) (m : SystemMutex) (env env2 : Env U), m.free →
      simply_lock_guard.ctor t m env = some (⟨⟨some t, 1⟩⟩, env.log (.lock t)) ∧
      simply_lock_guard.dtor t ⟨⟨some t, 1⟩⟩ env2 = (⟨⟨none, 0⟩⟩, env2.log (.unlock t))) ∧
    (∀ (t : Tid) (flag : once_flag) (f : Callable U E A) (args : A) (env : Env U),
      flag.done_ = false → flag.mutex_.free →
      ∃ (fl : once_flag) (env2 : Env U),
        (call_once t flag f args env = .returned (fl, env2) ∨
          ∃ e, call_once t flag f args env = .raised e (fl, env2)) ∧
        fl.mutex_.free ∧
        locks env2.trace t = locks env.trace t + 1 ∧
        unlocks env2.trace t = unlocks env.trace t + 1) ∧
    (∀ (acts : Tid → U → Outcome E × U) (n : Nat) (u0 : U) (sched : List Tid) (t : Tid)
        (pc : Pc E),
      (run acts sched (Sys.start n u0)).pcs[t]? = some pc →
      locks (run acts sched (Sys.start n u0)).env.trace t ≤ 1 ∧
      unlocks (run acts sched (Sys.start n u0)).env.trace t ≤
        locks (run acts sched (Sys.start n u0)).env.trace t ∧
      (pc.guarded = true →
        locks (run acts sched (Sys.start n u0)).env.trace t = 1 ∧
        unlocks (run acts sched (Sys.start n u0)).env.trace t = 0 ∧
        (run acts sched (Sys.start n u0)).flag.mutex_.held_by t) ∧
      (∀ r, pc = .finished r →
        unlocks (run acts sched (Sys.start n u0)).env.trace t =
          locks (run acts sched (Sys.start n u0)).env.trace t ∧
        (run acts sched (Sys.start n u0)).flag.mutex_._mutex.owner ≠ some t)) := by
  refine ⟨?_, ?_, ?_⟩
  · intro t m env env2 hm
    constructor
    · simp [simply_lock_guard.ctor, lock_free m t hm]
    · simp [simply_lock_guard.dtor, unlock_held]
  · intro t flag f args env hd hm
    cases hc : call f args env.user with
    | mk o u1 =>
      cases o with
      | returned =>
        refine ⟨_, _, Or.inl (call_once_returns t flag f args env u1 hd hm hc), hm, ?_, ?_⟩
        · simp [locks, List.count_append, List.count_cons]
        · simp [unlocks, List.count_append, List.count_cons]
      | raised e =>
        refine ⟨_, _, Or.inr ⟨e, call_once_raises t flag f args env e u1 hd hm hc⟩, hm, ?_, ?_⟩
        · simp [locks, List.count_append, List.count_cons]
        · simp [unlocks, List.count_append, List.count_cons]
  · intro acts n u0 sched t pc hp
    have hI := inv_run acts sched n u0
    have hB := bal_run acts sched n u0 t pc hp
    refine ⟨?_, ?_, ?_, ?_⟩
    · cases pc <;> simp [balance] at hB <;> omega
    · cases pc <;> simp [balance] at hB <;> omega
    · intro hg
      refine ⟨?_, ?_, hI.guarded_holds t pc hp hg⟩
      · cases pc <;> simp [balance, Pc.guarded] at hB hg <;> omega
      · cases pc <;> simp [balance, Pc.guarded] at hB hg <;> omega
    · intro r hr
      subst hr
      refine ⟨by simp [balance] at hB; omega, ?_⟩
      intro howner
      rcases hI.mutex with hfree | ⟨t0, h0⟩
      · unfold SystemMutex.free at hfree
        rw [hfree] at howner
        cases howner
      · have h0c := h0
        unfold SystemMutex.held_by at h0c
        rw [h0c] at howner
        simp only [Option.some.injEq] at howner
        subst howner
        obtain ⟨q, hq, hqg⟩ := hI.held_guarded _ h0
        rw [hp] at hq
        cases hq
        simp [Pc.guarded] at hqg

/-- Witness of C6: in the race of two threads, thread 1 leaves through the
re-check of line 96; it has locked once and unlocked once, and does not hold
the mutex. -/
theorem guard_locks_and_unlocks_once_witness :
    locks race2.env.trace 1 = 1 ∧ unlocks race2.env.trace 1 = locks race2.env.trace 1 ∧
      race2.flag.mutex_._mutex.owner ≠ some 1 :=
  ⟨by decide,
    ((guard_locks_and_unlocks_once (U := Nat) (E := Unit) (A := Unit)).2.2
      (fun _ => call increment ()) 2 0 [0, 1, 0, 0, 0, 0, 0, 0, 1, 1, 1] 1
      (.finished .returned) (by rfl)).2.2.2 .returned rfl⟩

/-- C10, against the claim: entered with the marker false, an invocation
whose action raises locks, invokes and unlocks, and never sets the marker. -/
theorem call_once_raising_skips_store :
    call_once 0 once_flag.ctor
        (.function (fun (_ : Unit) (u : Nat) => (Outcome.raised (), u))) () ⟨0, []⟩ =
      .raised () (⟨SystemMutex.ctor, false⟩,
        ⟨0, [.lock 0, .invoke 0, .raise 0, .unlock 0]⟩) :=
  by rfl

/-- C10, amended: entered with the marker false and the mutex free, and no
other thread moving, an invocation whose action returns performs exactly
lock, invoke, (the action returns,) set the marker, unlock; one whose action
raises performs lock, invoke, (the action raises,) unlock and leaves the
marker false. In every interleaved execution the operations of each thread
are, in order, those its place stands for (`effects`: for a thread that has
left, nothing, or lock and unlock, or one of the two sequences above); a
thread inside the action holds the mutex, no two threads are inside the
action, and the marker changes only by being set, by a thread that holds the
mutex before and after and whose action has returned. -/
theorem call_once_order_of_effects :
    (∀ (t : Tid) (flag : once_flag) (f : Callable U E A) (args : A) (env : Env U) (u1 : U),
      flag.done_ = false → flag.mutex_.free → call f args env.user = (.returned, u1) →
      call_once t flag f args env =
        .returned (⟨flag.mutex_, true⟩, ⟨u1, env.trace ++
          [.lock t, .invoke t, .complete t, .store_done t, .unlock t]⟩)) ∧
    (∀ (t : Tid) (flag : once_flag) (f : Callable U E A) (args : A) (env : Env U) (e : E)
        (u1 : U),
      flag.done_ = false → flag.mutex_.free → call f args env.user = (.raised e, u1) →
      call_once t flag f args env =
        .raised e (flag, ⟨u1, env.trace ++ [.lock t, .invoke t, .raise t, .unlock t]⟩)) ∧
    (∀ (acts : Tid → U → Outcome E × U) (n : Nat) (u0 : U) (sched : List Tid),
      (∀ (t : Tid) (pc : Pc E), (run acts sched (Sys.start n u0)).pcs[t]? = some pc →
        effects t pc (events_of t (run acts sched (Sys.start n u0)).env.trace)) ∧
      (∀ t : Tid, (run acts sched (Sys.start n u0)).pcs[t]? = some .in_action →
        (run acts sched (Sys.start n u0)).flag.mutex_.held_by t) ∧
      (∀ t t2 : Tid, (run acts sched (Sys.start n u0)).pcs[t]? = some .in_action →
        (run acts sched (Sys.start n u0)).pcs[t2]? = some .in_action → t = t2) ∧
      (∀ (t : Tid) (s2 : Sys U E),
        step acts t (run acts sched (Sys.start n u0)) = some s2 →
        s2.flag.done_ ≠ (run acts sched (Sys.start n u0)).flag.done_ →
        s2.flag.done_ = true ∧
        Event.complete t ∈ (run acts sched (Sys.start n u0)).env.trace ∧
        (run acts sched (Sys.start n u0)).flag.mutex_.held_by t ∧
        s2.flag.mutex_.held_by t)) := by
  refine ⟨?_, ?_, ?_⟩
  · intro t flag f args env u1 hd hm hc
    exact call_once_returns t flag f args env u1 hd hm hc
  · intro t flag f args env e u1 hd hm hc
    exact call_once_raises t flag f args env e u1 hd hm hc
  · intro acts n u0 sched
    have hI := inv_run acts sched n u0
    have hR := returned_run acts sched n u0
    refine ⟨seq_run acts sched n u0, ?_, ?_, ?_⟩
    · intro t hp
      exact hI.guarded_holds t _ hp rfl
    · intro t t2 hp hp2
      exact Inv.exclusive hI t t2 _ _ hp rfl hp2 rfl
    · intro t s2 hstep hne
      obtain ⟨hp, hd, hm⟩ := step_done acts t _ s2 hstep hne
      have hheld := hI.guarded_holds t _ hp rfl
      exact ⟨hd, hR t hp, hheld, hm ▸ hheld⟩

/-- Witness of C10: an action that increments a counter, on a new flag. -/
theorem call_once_order_of_effects_witness :
    call_once (E := Unit) 3 once_flag.ctor
        (.function (fun (_ : Unit) (u : Nat) => (.returned, u + 1))) () ⟨0, []⟩ =
      .returned (⟨once_flag.ctor.mutex_, true⟩, ⟨1, [] ++
        [.lock 3, .invoke 3, .complete 3, .store_done 3, .unlock 3]⟩) :=
  (call_once_order_of_effects (U := Nat) (E := Unit) (A := Unit)).1 3 once_flag.ctor
    (.function (fun (_ : Unit) (u : Nat) => (.returned, u + 1))) () ⟨0, []⟩ 1
    (by rfl) (by rfl) (by rfl)

end Claims

end Once
